import Mathlib

/-!
Verification of `tools/copy_aprinter_srcs.py`, a one-shot vendoring tool:
it seeds a pending set with the project tree's header files, transitively
chases `#include <aprinter/...>` directives (reading project-origin files
under the project source root and library-origin files under the supplied
APrinter root), and finally copies every processed library-origin file from
the library tree into the project tree.

The embedding models paths and file contents as lists of characters
(a file's content is its list of newline-free lines, matching how the
MULTILINE regex decomposes the byte string), filesystems as association
lists, and fallible filesystem operations with `Except`.  Python's mutable
`pending_files` / `processed_files` sets are modelled as duplicate-free
lists; `set.pop()`'s unspecified choice is modelled by an arbitrary choice
function `c : Nat → Nat` selecting the index that is popped.
-/

set_option maxHeartbeats 1000000

namespace CopySrcs

/-- Characters of a string literal; used to write path and line literals. -/
def strL (s : String) : List Char := s.toList

/-- A file path identifier: a relative path such as `aprinter/base/Assert.h`. -/
abbrev Path := List Char

/-- File content, as the list of its newline-separated lines. -/
abbrev Content := List (List Char)

/-- `os.path.join(a, b)` for a relative `b`: `a + '/' + b`, except that
joining onto the empty path gives `b` itself. -/
def pjoin (a b : Path) : Path := if a = [] then b else a ++ '/' :: b

/-- `os.path.dirname`: everything before the last `'/'`, or `[]` when the
path has no separator. -/
def dirname (p : Path) : Path :=
  (((p.reverse.dropWhile (fun c => ¬ c = '/')).drop 1)).reverse

/-- `path.endswith('.h')` from `collect_files` (line 57). -/
def endsDotH (p : Path) : Bool := decide (p.reverse.take 2 = strL "h.")

/-- `file_is_from_aprinter` (lines 103-104): `file_path.startswith('aprinter' + os.sep)`
with the POSIX separator `'/'`. -/
def file_is_from_aprinter (p : Path) : Bool := decide (p.take 9 = strL "aprinter/")

/-- The first path segment of a path: its characters before the first `'/'`.
Used to state the spec's origin-classification claim. -/
def firstSegment (p : Path) : Path := p.takeWhile (fun c => ¬ c = '/')

/-- One line matched against the regex `^ *# *include *<(aprinter/.+)> *$`
(line 35, compiled with `re.MULTILINE` so it applies per line): optional
spaces, `#`, optional spaces, the literal `include`, optional spaces, `<`,
the captured group `aprinter/` followed by one or more non-newline
characters (greedy, so the capture extends to the last `>` that is
followed only by spaces), `>`, optional trailing spaces, end of line.
Returns the captured group. -/
def matchIncludeLine (line : List Char) : Option (List Char) :=
  match line.dropWhile (fun c => c = ' ') with
  | '#' :: r1 =>
    let r2 := r1.dropWhile (fun c => c = ' ')
    if r2.take 7 = strL "include" then
      match (r2.drop 7).dropWhile (fun c => c = ' ') with
      | '<' :: r3 =>
        if r3.take 9 = strL "aprinter/" then
          match (r3.drop 9).reverse.dropWhile (fun c => c = ' ') with
          | '>' :: trev =>
            if trev = [] ∨ '\n' ∈ trev then none
            else some (strL "aprinter/" ++ trev.reverse)
          | _ => none
        else none
      | _ => none
    else none
  | _ => none

/-- `include_regex.finditer(file_content)` over the whole file: the captured
groups of all matching lines, in order (lines 85-86). -/
def scanContent (c : Content) : List Path := c.filterMap matchIncludeLine

/-- The flat filesystem read by the resolver and the mirror: full path to
file content.  Earlier entries shadow later ones (writes cons onto it). -/
abbrev FileMap := List (Path × Content)

/-- Association-list lookup of a full path. -/
def lookupFM (fs : FileMap) (p : Path) : Option Content :=
  match fs with
  | [] => none
  | (q, c) :: rest => if q = p then some c else lookupFM rest p

/-- `os.path.join(base_dir, file_path)` of `process_file` (lines 72-77):
library-origin identifiers resolve under the APrinter root, all others
under the project source root. -/
def resolvedPath (src apr : Path) (p : Path) : Path :=
  if file_is_from_aprinter p then pjoin apr p else pjoin src p

/-- The conditional insertion of one discovered include path into the
pending list (lines 87-88): inserted only when not already pending and not
already processed. -/
def insNew (processedRef : List Path) (pend : List Path) (inc : Path) : List Path :=
  if inc ∈ pend ∨ inc ∈ processedRef then pend else pend ++ [inc]

/-- `process_file` (lines 69-88): resolve the identifier's full path from
its origin, read the file (a missing file is a fatal `IOError`, returned as
`Except.error` carrying the failing full path), scan every line with the
include regex, and insert each captured path not already pending or
processed into the pending list.  Returns the new pending list. -/
def process_file (src apr : Path) (fs : FileMap) (file_path : Path)
    (pending processed : List Path) : Except Path (List Path) :=
  match lookupFM fs (resolvedPath src apr file_path) with
  | none => Except.error (resolvedPath src apr file_path)
  | some content =>
      Except.ok ((scanContent content).foldl (insNew processed) pending)

/-- Removal of one element from a list; with a duplicate-free list this is
exactly `set.remove` of that element (used to model `set.pop`). -/
def removeOne (l : List Path) (a : Path) : List Path :=
  match l with
  | [] => []
  | b :: rest => if b = a then rest else b :: removeOne rest a

/-- One iteration of the `while` loop of `process_pending_files`
(lines 64-67): pop the element at index `i` from the pending set, add it to
the processed set, then run `process_file` on it (which reads the file and
inserts newly discovered identifiers).  Note the element is added to
`processed` before `process_file` runs, exactly as in the source. -/
def resolveStep (src apr : Path) (fs : FileMap) (pending processed : List Path)
    (i : Nat) (h : i < pending.length) : Except Path (List Path × List Path) :=
  match process_file src apr fs (pending.get ⟨i, h⟩)
      (removeOne pending (pending.get ⟨i, h⟩)) (pending.get ⟨i, h⟩ :: processed) with
  | Except.error e => Except.error e
  | Except.ok pend2 => Except.ok (pend2, pending.get ⟨i, h⟩ :: processed)

/-- The `while len(pending_files) > 0` loop of `process_pending_files`
(lines 60-67), with an explicit fuel parameter (`none` means the fuel ran
out before the loop finished) and a choice function `c` fixing which
element each `set.pop()` removes.  On an uncaught read error the loop
terminates with that error. -/
def process_pending_files (c : Nat → Nat) (src apr : Path) (fs : FileMap) :
    Nat → List Path → List Path → Option (Except Path (List Path))
  | 0, pending, processed => if pending = [] then some (Except.ok processed) else none
  | fuel+1, pending, processed =>
    if hp : pending = [] then some (Except.ok processed)
    else
      match resolveStep src apr fs pending processed (c fuel % pending.length)
          (Nat.mod_lt _ (List.length_pos.mpr hp)) with
      | Except.error e => some (Except.error e)
      | Except.ok (pend2, proc1) => process_pending_files c src apr fs fuel pend2 proc1

/-- All include identifiers occurring in any file of the filesystem. -/
def includesAll (fs : FileMap) : List Path :=
  fs.foldr (fun pc acc => scanContent pc.2 ++ acc) []

/-- A finite universe containing every identifier the resolver can ever
see: the seeds plus every include of every file on disk.  Its size bounds
the number of loop iterations. -/
def universeFM (fs : FileMap) (pending : List Path) : List Path :=
  pending ++ includesAll fs

/-- The full resolution phase on a seed set, run with enough fuel for the
loop to reach its natural end (the fuel bound is one more than the size of
the identifier universe, which the invariant `Pending ∩ Processed = ∅`
makes sufficient). -/
def resolveAll (c : Nat → Nat) (src apr : Path) (fs : FileMap) (seeds : List Path) :
    Option (Except Path (List Path)) :=
  process_pending_files c src apr fs ((universeFM fs seeds).length + 1) seeds []

/-- The include graph induced by the filesystem: the identifiers scanned
from `p`'s file, or `[]` when `p`'s file does not exist. -/
def adjFM (src apr : Path) (fs : FileMap) (p : Path) : List Path :=
  match lookupFM fs (resolvedPath src apr p) with
  | some content => scanContent content
  | none => []

/-- Reachability through recognized include directives: `Reaches adj p q`
holds when `q` is `p` itself or is reachable from `p` by following edges of
the include graph `adj`. -/
inductive Reaches (adj : Path → List Path) : Path → Path → Prop
  | refl (p : Path) : Reaches adj p p
  | head {p q r : Path} : q ∈ adj p → Reaches adj q r → Reaches adj p r

mutual

/-- A directory entry of the project source tree, as seen by one
`os.listdir` + `os.stat` step of `collect_files` (lines 49-58): a regular
file, a directory with its children, an entry whose `stat` (or the listing
of which) fails with a filesystem error, or an entry that is neither a
regular file nor a directory (skipped by the `S_ISDIR`/`S_ISREG` tests). -/
inductive FsTree : Type
  | efile : Path → FsTree
  | edir : Path → FsForest → FsTree
  | ebad : Path → FsTree
  | eother : Path → FsTree

/-- The listing of one directory, in `os.listdir` order. -/
inductive FsForest : Type
  | nil : FsForest
  | cons : FsTree → FsForest → FsForest

end

mutual

/-- The body of the `for name in os.listdir(...)` loop of `collect_files`
(lines 49-58) for one entry: regular files are collected when their path
ends in `.h`; directories are walked recursively.  The source's
`if dir_path == 'aprinter': return` guard at the head of `collect_files`
(lines 43-44) is checked here at the recursive call; the tool's root call
passes the empty relative path, which never equals `aprinter`, so the
placement is equivalent.  A failing `stat`/listing raises, modelled as
`Except.error` carrying the entry's relative path. -/
def collectEnt (dp : Path) : FsTree → Except Path (List Path)
  | FsTree.efile name =>
      Except.ok (if endsDotH (pjoin dp name) then [pjoin dp name] else [])
  | FsTree.ebad name => Except.error (pjoin dp name)
  | FsTree.eother _ => Except.ok []
  | FsTree.edir name ch =>
      if pjoin dp name = strL "aprinter" then Except.ok []
      else collectForest (pjoin dp name) ch

/-- The full `for` loop of `collect_files` over one directory listing. -/
def collectForest (dp : Path) : FsForest → Except Path (List Path)
  | FsForest.nil => Except.ok []
  | FsForest.cons e rest =>
      match collectEnt dp e with
      | Except.error er => Except.error er
      | Except.ok a =>
        match collectForest dp rest with
        | Except.error er => Except.error er
        | Except.ok b => Except.ok (a ++ b)

end

/-- `collect_files(state, '')` (line 38): the seeding walk started at the
project source root. -/
def collect_files (root : FsForest) : Except Path (List Path) :=
  collectForest [] root

/-- The filesystem state seen by the mirror phase: the flat file map plus
the set of directories that exist.  `copy_aprinter_files` only ever adds
files and directories, so a list suffices. -/
structure MFS : Type where
  files : FileMap
  dirs : List Path

/-- `mkdir_p` (lines 106-111): `os.makedirs` raises `OSError` when
something already exists at the path; the handler re-raises unless the
existing entry is a directory.  Net effect: error exactly when a
non-directory (a file) occupies the path; re-creating an existing
directory is silently accepted. -/
def mkdir_p (path : Path) (fs : MFS) : Except Path MFS :=
  if (lookupFM fs.files path).isSome then Except.error path
  else Except.ok { fs with dirs := path :: fs.dirs }

/-- `shutil.copy(src, dst)` (line 101): read the full source content (a
missing source is a fatal error) and write it at the destination,
unconditionally overwriting an existing destination file.  A directory
occupying the destination path means no regular file can be created there,
modelled as an error. -/
def copyFile (src dst : Path) (fs : MFS) : Except Path MFS :=
  match lookupFM fs.files src with
  | none => Except.error src
  | some c =>
      if dst ∈ fs.dirs then Except.error dst
      else Except.ok { fs with files := (dst, c) :: fs.files }

/-- The `for file_path in aprinter_files` loop of `copy_aprinter_files`
(lines 93-101): for each file, create the destination's parent directory
and copy the library source over the destination.  Besides the final
filesystem it returns the log of source paths read and destination paths
written, used to state the frame conditions. -/
def copyRun (apr src : Path) : List Path → MFS → Except Path (MFS × List Path × List Path)
  | [], fs => Except.ok (fs, [], [])
  | fp :: rest, fs =>
    match mkdir_p (dirname (pjoin src fp)) fs with
    | Except.error e => Except.error e
    | Except.ok fs1 =>
      match copyFile (pjoin apr fp) (pjoin src fp) fs1 with
      | Except.error e => Except.error e
      | Except.ok fs2 =>
        match copyRun apr src rest fs2 with
        | Except.error e => Except.error e
        | Except.ok (fs3, rs, ws) =>
            Except.ok (fs3, pjoin apr fp :: rs, pjoin src fp :: ws)

/-- `copy_aprinter_files` (lines 90-101): filter the processed set down to
the library-origin identifiers and copy each from the library tree root
into the project tree. -/
def copy_aprinter_files (apr src : Path) (processed : List Path) (fs : MFS) :
    Except Path (MFS × List Path × List Path) :=
  copyRun apr src (processed.filter (fun p => file_is_from_aprinter p)) fs

/-- `main` (lines 22-40) after argument parsing: seed via `collect_files`,
resolve via `process_pending_files`, mirror via `copy_aprinter_files`.
Any error from a phase aborts the run and propagates out; `none` only
signals resolver fuel exhaustion (shown impossible elsewhere). -/
def mainRun (c : Nat → Nat) (apr src : Path) (root : FsForest) (fs : MFS) :
    Option (Except Path (MFS × List Path × List Path)) :=
  match collect_files root with
  | Except.error e => some (Except.error e)
  | Except.ok seeds =>
    match resolveAll c src apr fs.files seeds with
    | none => none
    | some (Except.error e) => some (Except.error e)
    | some (Except.ok finalSet) =>
      match copy_aprinter_files apr src finalSet fs with
      | Except.error e => some (Except.error e)
      | Except.ok res => some (Except.ok res)

/-- A list of space characters only (the regex `' '*`). -/
def spacesOnly (l : List Char) : Prop := ∀ c ∈ l, c = ' '

/-- A nonempty list of whitespace characters, reading the claim's
"whitespace" as spaces and tabs. -/
def wsOnly (l : List Char) : Prop := ∀ c ∈ l, c = ' ' ∨ c = '\t'

/-- The include-directive line form exactly as the claim words it: optional
leading whitespace, `#`, optional whitespace, `include`, (mandatory)
whitespace, `<`, `aprinter/`, the nonempty remainder of the path, `>`,
optional trailing whitespace, end of line. -/
def ClaimFormC5 (line : List Char) : Prop :=
  ∃ w1 w2 w3 w4 t : List Char,
    wsOnly w1 ∧ wsOnly w2 ∧ wsOnly w3 ∧ w3 ≠ [] ∧ wsOnly w4 ∧
    t ≠ [] ∧ '\n' ∉ t ∧
    line = w1 ++ '#' :: (w2 ++ (strL "include" ++ (w3 ++
      ('<' :: (strL "aprinter/" ++ (t ++ ('>' :: w4)))))))

/-- The line form the code's regex actually recognizes: as `ClaimFormC5`
but with space characters only and with the whitespace between `include`
and `<` optional. -/
def MatchedFormC5 (line : List Char) : Prop :=
  ∃ w1 w2 w3 w4 t : List Char,
    spacesOnly w1 ∧ spacesOnly w2 ∧ spacesOnly w3 ∧ spacesOnly w4 ∧
    t ≠ [] ∧ '\n' ∉ t ∧
    line = w1 ++ '#' :: (w2 ++ (strL "include" ++ (w3 ++
      ('<' :: (strL "aprinter/" ++ (t ++ ('>' :: w4)))))))

/-- Membership of an entry in a directory listing. -/
def forestMem (e : FsTree) : FsForest → Prop
  | FsForest.nil => False
  | FsForest.cons a rest => e = a ∨ forestMem e rest

/-- Declarative tree navigation: the segment list `segs` leads from the
listing `f` through directories to a regular file. -/
inductive FindsReg : FsForest → List Path → Prop
  | base {f : FsForest} {name : Path} :
      forestMem (FsTree.efile name) f → FindsReg f [name]
  | into {f : FsForest} {name : Path} {ch : FsForest} {segs : List Path} :
      forestMem (FsTree.edir name ch) f → FindsReg ch segs →
      FindsReg f (name :: segs)

/-- Joining path segments with `/`. -/
def joinSegs : List Path → Path
  | [] => []
  | [a] => a
  | a :: rest => a ++ '/' :: joinSegs rest

/-- The name of a directory entry. -/
def entName : FsTree → Path
  | FsTree.efile n => n
  | FsTree.edir n _ => n
  | FsTree.ebad n => n
  | FsTree.eother n => n

/-- Every top-level entry of the listing has a nonempty name (true of any
real directory listing). -/
def topNamesOk : FsForest → Bool
  | FsForest.nil => true
  | FsForest.cons e rest => !(entName e).isEmpty && topNamesOk rest

/-- Example project source root (concrete scenario for the witnesses). -/
def exSrc : Path := strL "src"

/-- Example APrinter root. -/
def exApr : Path := strL "apr"

/-- Example flat filesystem: a project header including one library header,
which includes a second library header and a non-matching system include. -/
def exFiles : FileMap :=
  [ (strL "src/foo.h", [strL "#include <aprinter/bar.h>"]),
    (strL "apr/aprinter/bar.h",
      [strL "#include <aprinter/baz.h>", strL "#include <vector>"]),
    (strL "apr/aprinter/baz.h", []) ]

/-- Example seed list. -/
def exSeeds : List Path := [strL "foo.h"]

/-- Example mirror-phase filesystem state. -/
def exMFS : MFS := { files := exFiles, dirs := [] }

/-- Example project tree listing: just the seed header. -/
def exRoot : FsForest := FsForest.cons (FsTree.efile (strL "foo.h")) FsForest.nil

/-- Example project tree listing for the seeding walk: a header, the
reserved `aprinter` directory (skipped), a subdirectory with a header and
a non-regular entry, and a non-header file. -/
def exRoot9 : FsForest :=
  FsForest.cons (FsTree.efile (strL "foo.h"))
  (FsForest.cons (FsTree.edir (strL "aprinter")
    (FsForest.cons (FsTree.efile (strL "x.h")) FsForest.nil))
  (FsForest.cons (FsTree.edir (strL "sub")
    (FsForest.cons (FsTree.efile (strL "y.h"))
    (FsForest.cons (FsTree.eother (strL "dev")) FsForest.nil)))
  (FsForest.cons (FsTree.efile (strL "notes.txt")) FsForest.nil)))

theorem takeWhile_append_of_all {q : Char → Bool} (w l : List Char)
    (hw : ∀ c ∈ w, q c = true) :
    (w ++ l).takeWhile q = w ++ l.takeWhile q := by
  induction w with
  | nil => simp
  | cons a w ih =>
    have ha : q a = true := hw a (by simp)
    simp only [List.cons_append, List.takeWhile_cons, ha, if_true]
    rw [ih (fun c hc => hw c (by simp [hc]))]

theorem dropWhile_append_of_all {q : Char → Bool} (w l : List Char)
    (hw : ∀ c ∈ w, q c = true) :
    (w ++ l).dropWhile q = l.dropWhile q := by
  induction w with
  | nil => simp
  | cons a w ih =>
    have ha : q a = true := hw a (by simp)
    simp only [List.cons_append, List.dropWhile_cons, ha, if_true]
    exact ih (fun c hc => hw c (by simp [hc]))

theorem dropWhile_head_false {q : Char → Bool} :
    ∀ (l : List Char) (c : Char) (r : List Char),
      l.dropWhile q = c :: r → q c = false := by
  intro l
  induction l with
  | nil => intro c r h; simp at h
  | cons a l ih =>
    intro c r h
    by_cases ha : q a
    · rw [List.dropWhile_cons_of_pos ha] at h; exact ih c r h
    · rw [List.dropWhile_cons_of_neg ha] at h
      cases h; simpa using ha

theorem all_takeWhile {q : Char → Bool} :
    ∀ l : List Char, ∀ c ∈ l.takeWhile q, q c = true := by
  intro l
  induction l with
  | nil => simp
  | cons a l ih =>
    by_cases ha : q a
    · rw [List.takeWhile_cons_of_pos ha]
      intro c hc
      rcases List.mem_cons.mp hc with rfl | hc
      · exact ha
      · exact ih c hc
    · rw [List.takeWhile_cons_of_neg ha]
      simp

theorem ws_peel {w l : List Char} {c : Char} {r : List Char}
    (hw : wsOnly w) (hc1 : ¬ c = ' ') (hc2 : ¬ c = '\t')
    (h : w ++ l = c :: r) : w = [] ∧ l = c :: r := by
  cases w with
  | nil => exact ⟨rfl, by simpa using h⟩
  | cons a w2 =>
    rw [List.cons_append] at h
    have ha := hw a (by simp)
    have hac : a = c := (List.cons.injEq _ _ _ _ ▸ h).1
    rcases ha with ha | ha
    · exact absurd (hac ▸ ha) hc1
    · exact absurd (hac ▸ ha) hc2

/-- C4 counterexample: the claim's classification "LibraryOrigin iff the
first path segment is `aprinter`" fails on the edge path `aprinter` with no
following separator: its first segment is `aprinter`, yet
`file_is_from_aprinter` classifies it as project-origin. -/
theorem spec_c4_counterexample :
    ¬ (file_is_from_aprinter (strL "aprinter") = true ↔
        firstSegment (strL "aprinter") = strL "aprinter") := by
  decide

/-- C4 (amended): a path is classified LibraryOrigin iff its first path
segment is the reserved namespace name `aprinter` AND a separator follows,
i.e. the path is not the bare namespace name; the bare path `aprinter` is
classified ProjectOrigin. -/
theorem spec_c4_amended (p : Path) :
    file_is_from_aprinter p = true ↔
      (firstSegment p = strL "aprinter" ∧ p ≠ strL "aprinter") := by
  constructor
  · intro h
    have h9 : p.take 9 = strL "aprinter/" := by
      simpa [file_is_from_aprinter] using h
    have hp : p = strL "aprinter/" ++ p.drop 9 := by
      conv_lhs => rw [← List.take_append_drop 9 p]
      rw [h9]
    constructor
    · rw [hp]
      show (strL "aprinter/" ++ p.drop 9).takeWhile _ = _
      have hsplit : strL "aprinter/" = strL "aprinter" ++ ['/'] := by decide
      rw [hsplit, List.append_assoc,
        takeWhile_append_of_all (strL "aprinter") _ (by decide)]
      simp [List.takeWhile_cons]
    · intro hcontra
      rw [hcontra] at h9
      exact absurd h9 (by decide)
  · rintro ⟨hseg, hne⟩
    have hsplit : p = strL "aprinter" ++ p.dropWhile (fun c => ¬ c = '/') := by
      conv_lhs =>
        rw [← List.takeWhile_append_dropWhile (p := fun c => ¬ c = '/') (l := p)]
      rw [show p.takeWhile (fun c => ¬ c = '/') = strL "aprinter" from hseg]
    cases hd : p.dropWhile (fun c => ¬ c = '/') with
    | nil =>
      exact absurd (by rw [hsplit, hd, List.append_nil]) hne
    | cons c r =>
      have hc : c = '/' := by
        have := dropWhile_head_false (q := fun c => ¬ c = '/') p c r hd
        simpa using this
      subst hc
      have hp : p = strL "aprinter/" ++ r := by
        rw [hsplit, hd]
        rw [show strL "aprinter/" = strL "aprinter" ++ ['/'] from by decide]
        rw [List.append_assoc]
        rfl
      unfold file_is_from_aprinter
      rw [hp, List.take_left' (by decide)]
      simp

theorem matchIncludeLine_isSome_mp {line : List Char}
    (h : (matchIncludeLine line).isSome = true) : MatchedFormC5 line := by
  simp only [matchIncludeLine] at h
  split at h
  case h_2 => simp at h
  case h_1 r1 e1 =>
    split at h
    case isFalse => simp at h
    case isTrue e2 =>
      split at h
      case h_2 => simp at h
      case h_1 r3 e3 =>
        split at h
        case isFalse => simp at h
        case isTrue e4 =>
          split at h
          case h_2 => simp at h
          case h_1 trev e5 =>
            split at h
            case isTrue => simp at h
            case isFalse e6 =>
              push_neg at e6
              obtain ⟨ht, hnl⟩ := e6
              refine ⟨line.takeWhile (fun c => c = ' '),
                r1.takeWhile (fun c => c = ' '),
                ((r1.dropWhile (fun c => c = ' ')).drop 7).takeWhile (fun c => c = ' '),
                (((r3.drop 9).reverse).takeWhile (fun c => c = ' ')).reverse,
                trev.reverse, ?_, ?_, ?_, ?_, ?_, ?_, ?_⟩
              · intro c hc
                simpa using all_takeWhile line c hc
              · intro c hc
                simpa using all_takeWhile r1 c hc
              · intro c hc
                simpa using all_takeWhile _ c hc
              · intro c hc
                rw [List.mem_reverse] at hc
                simpa using all_takeWhile _ c hc
              · simpa using ht
              · rw [List.mem_reverse]; exact hnl
              · have hline : line = line.takeWhile (fun c => c = ' ') ++ ('#' :: r1) := by
                  rw [← e1, List.takeWhile_append_dropWhile]
                have hr1 : r1 = r1.takeWhile (fun c => c = ' ') ++
                    r1.dropWhile (fun c => c = ' ') := by
                  rw [List.takeWhile_append_dropWhile]
                have hX2 : r1.dropWhile (fun c => c = ' ') =
                    strL "include" ++ (r1.dropWhile (fun c => c = ' ')).drop 7 := by
                  conv_lhs => rw [← List.take_append_drop 7 (r1.dropWhile (fun c => c = ' '))]
                  rw [e2]
                have hX3 : (r1.dropWhile (fun c => c = ' ')).drop 7 =
                    ((r1.dropWhile (fun c => c = ' ')).drop 7).takeWhile (fun c => c = ' ') ++
                      ('<' :: r3) := by
                  rw [← e3, List.takeWhile_append_dropWhile]
                have hr3 : r3 = strL "aprinter/" ++ r3.drop 9 := by
                  conv_lhs => rw [← List.take_append_drop 9 r3]
                  rw [e4]
                have hs : r3.drop 9 = trev.reverse ++
                    ('>' :: (((r3.drop 9).reverse).takeWhile (fun c => c = ' ')).reverse) := by
                  conv_lhs => rw [← List.reverse_reverse (r3.drop 9)]
                  conv_lhs =>
                    rw [show (r3.drop 9).reverse =
                        ((r3.drop 9).reverse).takeWhile (fun c => c = ' ') ++ ('>' :: trev) from
                      by rw [← e5, List.takeWhile_append_dropWhile]]
                  rw [List.reverse_append, List.reverse_cons, List.append_assoc]
                  rfl
                rw [← hs, ← hr3, ← hX3, ← hX2, ← hr1, ← hline]

theorem matchIncludeLine_isSome_mpr {line : List Char}
    (h : MatchedFormC5 line) : (matchIncludeLine line).isSome = true := by
  obtain ⟨w1, w2, w3, w4, t, hw1, hw2, hw3, hw4, ht, hnl, rfl⟩ := h
  have hq1 : ∀ c ∈ w1, ((fun c => (decide (c = ' '))) c = true) := by
    intro c hc; rw [hw1 c hc]; decide
  have hq2 : ∀ c ∈ w2, ((fun c => (decide (c = ' '))) c = true) := by
    intro c hc; rw [hw2 c hc]; decide
  have hq3 : ∀ c ∈ w3, ((fun c => (decide (c = ' '))) c = true) := by
    intro c hc; rw [hw3 c hc]; decide
  have hq4 : ∀ c ∈ w4.reverse, ((fun c => (decide (c = ' '))) c = true) := by
    intro c hc; rw [hw4 c (List.mem_reverse.mp hc)]; decide
  simp only [matchIncludeLine]
  rw [dropWhile_append_of_all w1 _ hq1, List.dropWhile_cons_of_neg (by decide)]
  have hd2 : (w2 ++ (strL "include" ++ (w3 ++
      ('<' :: (strL "aprinter/" ++ (t ++ ('>' :: w4))))))).dropWhile (fun c => c = ' ') =
      strL "include" ++ (w3 ++ ('<' :: (strL "aprinter/" ++ (t ++ ('>' :: w4))))) := by
    rw [dropWhile_append_of_all w2 _ hq2,
      show strL "include" ++ (w3 ++ ('<' :: (strL "aprinter/" ++ (t ++ ('>' :: w4))))) =
        'i' :: (strL "nclude" ++ (w3 ++ ('<' :: (strL "aprinter/" ++ (t ++ ('>' :: w4))))))
        from rfl,
      List.dropWhile_cons_of_neg (by decide)]
  split
  case h_2 hno =>
    exact absurd rfl (hno _)
  case h_1 r1 heq =>
    obtain rfl : w2 ++ (strL "include" ++ (w3 ++
        ('<' :: (strL "aprinter/" ++ (t ++ ('>' :: w4)))))) = r1 :=
      (List.cons.injEq _ _ _ _ ▸ heq).2
    rw [hd2, List.take_left' (by decide), if_pos rfl, List.drop_left' (by decide),
      dropWhile_append_of_all w3 _ hq3, List.dropWhile_cons_of_neg (by decide)]
    split
    case h_2 hno =>
      exact absurd rfl (hno _)
    case h_1 r3 heq3 =>
      obtain rfl : strL "aprinter/" ++ (t ++ ('>' :: w4)) = r3 :=
        (List.cons.injEq _ _ _ _ ▸ heq3).2
      rw [List.take_left' (by decide), if_pos rfl, List.drop_left' (by decide)]
      have hsrev : (t ++ ('>' :: w4)).reverse = w4.reverse ++ ('>' :: t.reverse) := by
        rw [List.reverse_append, List.reverse_cons, List.append_assoc]
        rfl
      rw [hsrev, dropWhile_append_of_all w4.reverse _ hq4,
        List.dropWhile_cons_of_neg (by decide)]
      split
      case h_2 hno =>
        exact absurd rfl (hno _)
      case h_1 trev heq5 =>
        obtain rfl : t.reverse = trev := (List.cons.injEq _ _ _ _ ▸ heq5).2
        have hcond : ¬ (t.reverse = [] ∨ '\n' ∈ t.reverse) := by
          push_neg
          exact ⟨by simpa using ht, by rw [List.mem_reverse]; exact hnl⟩
        rw [if_neg hcond]
        rfl

/-- C5 (amended): a line is recognized by the include regex iff it has the
form: optional leading spaces, `#`, optional spaces, the literal `include`,
optional spaces (the whitespace between `include` and `<` may be empty, and
only the space character counts as whitespace anywhere in the pattern),
`<`, `aprinter/`, a nonempty newline-free remainder, `>`, optional trailing
spaces, end of line. -/
theorem spec_c5_amended (line : List Char) :
    (matchIncludeLine line).isSome = true ↔ MatchedFormC5 line :=
  ⟨matchIncludeLine_isSome_mp, matchIncludeLine_isSome_mpr⟩

/-- C5 counterexample: the claim requires mandatory whitespace between
`include` and `<` and admits any whitespace; the code's regex ` *` does
neither.  `#include<aprinter/a.h>` (no space before `<`) is recognized by
the code but not of the claim's form, while a tab-indented include is of
the claim's form but not recognized. -/
theorem spec_c5_counterexample :
    (matchIncludeLine (strL "#include<aprinter/a.h>")).isSome = true ∧
    ¬ ClaimFormC5 (strL "#include<aprinter/a.h>") ∧
    ClaimFormC5 (strL "\t#include <aprinter/a.h>") ∧
    (matchIncludeLine (strL "\t#include <aprinter/a.h>")).isSome = false := by
  refine ⟨by decide, ?_, ?_, by decide⟩
  · rintro ⟨w1, w2, w3, w4, t, h1, h2, h3, hne, h4, ht, hnl, heq⟩
    have hL : strL "#include<aprinter/a.h>" =
        '#' :: strL "include<aprinter/a.h>" := rfl
    rw [hL] at heq
    obtain ⟨hw1, heq2⟩ := ws_peel h1 (by decide) (by decide) heq.symm
    have heq3 : w2 ++ (strL "include" ++ (w3 ++
        ('<' :: (strL "aprinter/" ++ (t ++ ('>' :: w4)))))) =
        strL "include<aprinter/a.h>" := by
      have := (List.cons.injEq _ _ _ _ ▸ heq2).2
      exact this
    rw [show strL "include<aprinter/a.h>" =
        'i' :: strL "nclude<aprinter/a.h>" from rfl] at heq3
    obtain ⟨hw2, heq4⟩ := ws_peel h2 (by decide) (by decide) heq3
    rw [show ('i' : Char) :: strL "nclude<aprinter/a.h>" =
        strL "include" ++ ('<' :: strL "aprinter/a.h>") from rfl] at heq4
    have heq5 : w3 ++ ('<' :: (strL "aprinter/" ++ (t ++ ('>' :: w4)))) =
        '<' :: strL "aprinter/a.h>" := List.append_cancel_left heq4
    obtain ⟨hw3, -⟩ := ws_peel h3 (by decide) (by decide) heq5
    exact hne hw3
  · refine ⟨['\t'], [], [' '], [], strL "a.h",
      ?_, ?_, ?_, by decide, ?_, by decide, by decide, rfl⟩
    · intro c hc
      simp only [List.mem_singleton] at hc
      exact Or.inr hc
    · intro c hc
      simp at hc
    · intro c hc
      simp only [List.mem_singleton] at hc
      exact Or.inl hc
    · intro c hc
      simp at hc

theorem removeOne_subset {l : List Path} {a x : Path} (h : x ∈ removeOne l a) : x ∈ l := by
  induction l with
  | nil => simpa [removeOne] using h
  | cons b rest ih =>
    rw [removeOne] at h
    by_cases hb : b = a
    · rw [if_pos hb] at h
      exact List.mem_cons_of_mem _ h
    · rw [if_neg hb] at h
      rcases List.mem_cons.mp h with rfl | h
      · exact List.mem_cons_self _ _
      · exact List.mem_cons_of_mem _ (ih h)

theorem nodup_removeOne {l : List Path} (a : Path) (h : l.Nodup) :
    (removeOne l a).Nodup := by
  induction l with
  | nil => simpa [removeOne] using h
  | cons b rest ih =>
    rw [removeOne]
    rw [List.nodup_cons] at h
    by_cases hb : b = a
    · rw [if_pos hb]
      exact h.2
    · rw [if_neg hb]
      rw [List.nodup_cons]
      exact ⟨fun hc => h.1 (removeOne_subset hc), ih h.2⟩

theorem mem_removeOne {l : List Path} {a x : Path} (hnd : l.Nodup) :
    x ∈ removeOne l a ↔ (x ∈ l ∧ x ≠ a) := by
  induction l with
  | nil => simp [removeOne]
  | cons b rest ih =>
    rw [List.nodup_cons] at hnd
    rw [removeOne]
    by_cases hb : b = a
    · subst hb
      rw [if_pos rfl]
      constructor
      · intro hx
        exact ⟨List.mem_cons_of_mem _ hx, fun he => hnd.1 (he ▸ hx)⟩
      · rintro ⟨hx, hne⟩
        rcases List.mem_cons.mp hx with rfl | hx
        · exact absurd rfl hne
        · exact hx
    · rw [if_neg hb]
      constructor
      · intro hx
        rcases List.mem_cons.mp hx with rfl | hx
        · exact ⟨List.mem_cons_self _ _, fun he => hb he⟩
        · have := (ih hnd.2).mp hx
          exact ⟨List.mem_cons_of_mem _ this.1, this.2⟩
      · rintro ⟨hx, hne⟩
        rcases List.mem_cons.mp hx with rfl | hx
        · exact List.mem_cons_self _ _
        · exact List.mem_cons_of_mem _ ((ih hnd.2).mpr ⟨hx, hne⟩)

theorem mem_foldl_insNew {PR : List Path} {x : Path} :
    ∀ (L : List Path) (pend : List Path),
      (x ∈ L.foldl (insNew PR) pend ↔ x ∈ pend ∨ (x ∈ L ∧ x ∉ PR)) := by
  intro L
  induction L with
  | nil => simp
  | cons a L ih =>
    intro pend
    rw [List.foldl_cons, ih]
    unfold insNew
    by_cases ha : a ∈ pend ∨ a ∈ PR
    · rw [if_pos ha]
      constructor
      · rintro (hx | ⟨hx, hpr⟩)
        · exact Or.inl hx
        · exact Or.inr ⟨List.mem_cons_of_mem _ hx, hpr⟩
      · rintro (hx | ⟨hx, hpr⟩)
        · exact Or.inl hx
        · rcases List.mem_cons.mp hx with rfl | hx
          · rcases ha with ha | ha
            · exact Or.inl ha
            · exact absurd ha hpr
          · exact Or.inr ⟨hx, hpr⟩
    · rw [if_neg ha]
      push_neg at ha
      constructor
      · rintro (hx | ⟨hx, hpr⟩)
        · rcases List.mem_append.mp hx with hx | hx
          · exact Or.inl hx
          · rcases List.mem_singleton.mp hx with rfl
            exact Or.inr ⟨List.mem_cons_self _ _, ha.2⟩
        · exact Or.inr ⟨List.mem_cons_of_mem _ hx, hpr⟩
      · rintro (hx | ⟨hx, hpr⟩)
        · exact Or.inl (List.mem_append.mpr (Or.inl hx))
        · rcases List.mem_cons.mp hx with rfl | hx
          · exact Or.inl (List.mem_append.mpr (Or.inr (List.mem_singleton.mpr rfl)))
          · exact Or.inr ⟨hx, hpr⟩

theorem nodup_foldl_insNew {PR : List Path} :
    ∀ (L : List Path) (pend : List Path), pend.Nodup →
      (L.foldl (insNew PR) pend).Nodup := by
  intro L
  induction L with
  | nil => intro pend h; simpa using h
  | cons a L ih =>
    intro pend h
    rw [List.foldl_cons]
    apply ih
    unfold insNew
    by_cases ha : a ∈ pend ∨ a ∈ PR
    · rw [if_pos ha]; exact h
    · rw [if_neg ha]
      push_neg at ha
      rw [List.nodup_append]
      exact ⟨h, List.nodup_singleton a, by simpa using ha.1⟩

theorem subset_foldl_insNew {PR : List Path} {L pend : List Path} {x : Path}
    (h : x ∈ pend) : x ∈ L.foldl (insNew PR) pend :=
  (mem_foldl_insNew L pend).mpr (Or.inl h)

theorem lookupFM_mem {fs : FileMap} {k : Path} {c : Content}
    (h : lookupFM fs k = some c) : (k, c) ∈ fs := by
  induction fs with
  | nil => simp [lookupFM] at h
  | cons pc rest ih =>
    obtain ⟨q, c2⟩ := pc
    rw [lookupFM] at h
    by_cases hq : q = k
    · rw [if_pos hq] at h
      obtain rfl := Option.some.injEq _ _ ▸ h
      subst hq
      exact List.mem_cons_self _ _
    · rw [if_neg hq] at h
      exact List.mem_cons_of_mem _ (ih h)

theorem mem_includesAll {fs : FileMap} {x : Path} :
    x ∈ includesAll fs ↔ ∃ pc ∈ fs, x ∈ scanContent pc.2 := by
  induction fs with
  | nil => simp [includesAll]
  | cons pc rest ih =>
    unfold includesAll at ih ⊢
    rw [List.foldr_cons, List.mem_append, ih]
    constructor
    · rintro (hx | ⟨pc2, hpc2, hx⟩)
      · exact ⟨pc, List.mem_cons_self _ _, hx⟩
      · exact ⟨pc2, List.mem_cons_of_mem _ hpc2, hx⟩
    · rintro ⟨pc2, hpc2, hx⟩
      rcases List.mem_cons.mp hpc2 with rfl | hpc2
      · exact Or.inl hx
      · exact Or.inr ⟨pc2, hpc2, hx⟩

theorem adjFM_subset_includesAll {src apr : Path} {fs : FileMap} {p y : Path}
    (h : y ∈ adjFM src apr fs p) : y ∈ includesAll fs := by
  unfold adjFM at h
  cases hlk : lookupFM fs (resolvedPath src apr p) with
  | none => rw [hlk] at h; simp at h
  | some content =>
    rw [hlk] at h
    exact mem_includesAll.mpr ⟨_, lookupFM_mem hlk, h⟩

theorem adjFM_eq_of_lookup {src apr : Path} {fs : FileMap} {p : Path} {content : Content}
    (h : lookupFM fs (resolvedPath src apr p) = some content) :
    adjFM src apr fs p = scanContent content := by
  unfold adjFM
  rw [h]

theorem reaches_mem_of_closed {adj : Path → List Path} {F : List Path}
    (hcl : ∀ x ∈ F, ∀ y ∈ adj x, y ∈ F) {p q : Path}
    (h : Reaches adj p q) (hp : p ∈ F) : q ∈ F := by
  induction h with
  | refl => exact hp
  | head hq _ ih => exact ih (hcl _ hp _ hq)

theorem resolveStep_error {src apr : Path} {fs : FileMap} {pending processed : List Path}
    {i : Nat} (h : i < pending.length)
    (hlk : lookupFM fs (resolvedPath src apr (pending.get ⟨i, h⟩)) = none) :
    resolveStep src apr fs pending processed i h =
      Except.error (resolvedPath src apr (pending.get ⟨i, h⟩)) := by
  unfold resolveStep process_file
  rw [hlk]

theorem resolveStep_ok {src apr : Path} {fs : FileMap} {pending processed : List Path}
    {i : Nat} (h : i < pending.length) {content : Content}
    (hlk : lookupFM fs (resolvedPath src apr (pending.get ⟨i, h⟩)) = some content) :
    resolveStep src apr fs pending processed i h =
      Except.ok ((scanContent content).foldl (insNew (pending.get ⟨i, h⟩ :: processed))
        (removeOne pending (pending.get ⟨i, h⟩)), pending.get ⟨i, h⟩ :: processed) := by
  unfold resolveStep process_file
  rw [hlk]

theorem process_pending_files_succ (c : Nat → Nat) (src apr : Path) (fs : FileMap)
    (fuel : Nat) (pending processed : List Path) (hp : ¬ pending = []) :
    process_pending_files c src apr fs (fuel+1) pending processed =
      match resolveStep src apr fs pending processed (c fuel % pending.length)
          (Nat.mod_lt _ (List.length_pos.mpr hp)) with
      | Except.error e => some (Except.error e)
      | Except.ok (pend2, proc1) => process_pending_files c src apr fs fuel pend2 proc1 := by
  simp only [process_pending_files]
  rw [dif_neg hp]

theorem reaches_cases {adj : Path → List Path} {p q : Path} (h : Reaches adj p q) :
    q = p ∨ ∃ x, q ∈ adj x := by
  induction h with
  | refl => exact Or.inl rfl
  | head hq _ ih =>
    rcases ih with rfl | hx
    · exact Or.inr ⟨_, hq⟩
    · exact Or.inr hx

theorem reaches_isSome {src apr : Path} {fs : FileMap}
    (hEX : ∀ pc ∈ fs, ∀ inc ∈ scanContent pc.2,
      (lookupFM fs (resolvedPath src apr inc)).isSome = true)
    {p q : Path} (h : Reaches (adjFM src apr fs) p q)
    (hp : (lookupFM fs (resolvedPath src apr p)).isSome = true) :
    (lookupFM fs (resolvedPath src apr q)).isSome = true := by
  induction h with
  | refl => exact hp
  | head hq hr ih =>
    rename_i a b r
    apply ih
    unfold adjFM at hq
    cases hlk : lookupFM fs (resolvedPath src apr a) with
    | none => rw [hlk] at hq; simp at hq
    | some content =>
      rw [hlk] at hq
      exact hEX _ (lookupFM_mem hlk) _ hq

/-- The workhorse: with the loop invariants of `process_pending_files`
(duplicate-free pending and processed lists, disjointness, pending inside
the finite universe `U`, every processed file's includes already
discovered, and fuel exceeding the number of universe elements not yet
processed) the loop yields a result; an `ok` result is duplicate-free,
extends pending and processed, is closed under the include graph, contains
only identifiers already processed or reachable from pending, and contains
no identifier whose file was never successfully read; and when every
identifier reachable from pending has an existing file the result is `ok`. -/
theorem resolveMaster (c : Nat → Nat) (src apr : Path) (fs : FileMap) (U : Finset Path)
    (hadjU : ∀ p q : Path, q ∈ adjFM src apr fs p → q ∈ U) :
    ∀ (fuel : Nat) (pending processed : List Path),
      pending.Nodup → processed.Nodup →
      (∀ x ∈ pending, x ∉ processed) →
      (∀ x ∈ pending, x ∈ U) →
      (∀ x ∈ processed, ∀ y ∈ adjFM src apr fs x, y ∈ pending ∨ y ∈ processed) →
      (U \ processed.toFinset).card < fuel →
      ∃ r, process_pending_files c src apr fs fuel pending processed = some r ∧
        (∀ final, r = Except.ok final →
          final.Nodup ∧
          (∀ x ∈ processed, x ∈ final) ∧ (∀ x ∈ pending, x ∈ final) ∧
          (∀ x ∈ final, ∀ y ∈ adjFM src apr fs x, y ∈ final) ∧
          (∀ x ∈ final, x ∈ processed ∨
            ∃ p ∈ pending, Reaches (adjFM src apr fs) p x) ∧
          (∀ x ∈ final, x ∈ processed ∨
            (lookupFM fs (resolvedPath src apr x)).isSome = true)) ∧
        ((∀ q, (∃ p ∈ pending, Reaches (adjFM src apr fs) p q) →
            (lookupFM fs (resolvedPath src apr q)).isSome = true) →
          ∃ final, r = Except.ok final) := by
  intro fuel
  induction fuel with
  | zero =>
    intro pending processed _ _ _ _ _ hfuel
    exact absurd hfuel (Nat.not_lt_zero _)
  | succ fuel ih =>
    intro pending processed hndP hndQ hdisj hpU hclosed hfuel
    by_cases hp : pending = []
    · subst hp
      refine ⟨Except.ok processed, ?_, ?_, fun _ => ⟨processed, rfl⟩⟩
      · simp [process_pending_files]
      · rintro final hfin
        obtain rfl : processed = final := by
          simpa using hfin
        refine ⟨hndQ, fun x hx => hx, by simp, ?_, fun x hx => Or.inl hx,
          fun x hx => Or.inl hx⟩
        intro x hx y hy
        rcases hclosed x hx y hy with h | h
        · simp at h
        · exact h
    · have hilen : c fuel % pending.length < pending.length :=
        Nat.mod_lt _ (List.length_pos.mpr hp)
      set p := pending.get ⟨c fuel % pending.length, hilen⟩ with hpdef
      have hpmem : p ∈ pending := List.get_mem _ _ _
      have hpnotQ : p ∉ processed := hdisj p hpmem
      cases hlk : lookupFM fs (resolvedPath src apr p) with
      | none =>
        refine ⟨Except.error (resolvedPath src apr p), ?_, ?_, ?_⟩
        · rw [process_pending_files_succ c src apr fs fuel pending processed hp]
          rw [resolveStep_error hilen hlk]
        · rintro final hfin
          simp at hfin
        · intro hex
          exfalso
          have := hex p ⟨p, hpmem, Reaches.refl p⟩
          rw [hlk] at this
          simp at this
      | some content =>
        set pend2 := (scanContent content).foldl (insNew (p :: processed))
          (removeOne pending p) with hpend2def
        have hadj_p : adjFM src apr fs p = scanContent content := adjFM_eq_of_lookup hlk
        have hmem2 : ∀ x, x ∈ pend2 ↔
            ((x ∈ pending ∧ x ≠ p) ∨ (x ∈ scanContent content ∧ x ∉ p :: processed)) := by
          intro x
          rw [hpend2def, mem_foldl_insNew, mem_removeOne hndP]
        have hnd2 : pend2.Nodup :=
          nodup_foldl_insNew _ _ (nodup_removeOne p hndP)
        have hnd1 : (p :: processed).Nodup := List.nodup_cons.mpr ⟨hpnotQ, hndQ⟩
        have hdisj2 : ∀ x ∈ pend2, x ∉ p :: processed := by
          intro x hx
          rcases (hmem2 x).mp hx with ⟨hxp, hne⟩ | ⟨_, hnp⟩
          · intro hc
            rcases List.mem_cons.mp hc with rfl | hc
            · exact hne rfl
            · exact hdisj x hxp hc
          · exact hnp
        have hpU2 : ∀ x ∈ pend2, x ∈ U := by
          intro x hx
          rcases (hmem2 x).mp hx with ⟨hxp, _⟩ | ⟨hscan, _⟩
          · exact hpU x hxp
          · exact hadjU p x (hadj_p ▸ hscan)
        have hclosed2 : ∀ x ∈ p :: processed, ∀ y ∈ adjFM src apr fs x,
            y ∈ pend2 ∨ y ∈ p :: processed := by
          intro x hx y hy
          rcases List.mem_cons.mp hx with rfl | hx
          · by_cases hy1 : y ∈ p :: processed
            · exact Or.inr hy1
            · exact Or.inl ((hmem2 y).mpr (Or.inr ⟨hadj_p ▸ hy, hy1⟩))
          · rcases hclosed x hx y hy with hy2 | hy2
            · by_cases hyp : y = p
              · exact Or.inr (hyp ▸ List.mem_cons_self _ _)
              · exact Or.inl ((hmem2 y).mpr (Or.inl ⟨hy2, hyp⟩))
            · exact Or.inr (List.mem_cons_of_mem _ hy2)
        have hfuel2 : (U \ (p :: processed).toFinset).card < fuel := by
          have hpmemU : p ∈ U \ processed.toFinset :=
            Finset.mem_sdiff.mpr ⟨hpU p hpmem, by
              rw [List.mem_toFinset]
              exact hpnotQ⟩
          have hposc : 0 < (U \ processed.toFinset).card :=
            Finset.card_pos.mpr ⟨p, hpmemU⟩
          rw [List.toFinset_cons, Finset.sdiff_insert, Finset.card_erase_of_mem hpmemU]
          omega
        obtain ⟨r, hrun, hokk, hexx⟩ :=
          ih pend2 (p :: processed) hnd2 hnd1 hdisj2 hpU2 hclosed2 hfuel2
        refine ⟨r, ?_, ?_, ?_⟩
        · rw [process_pending_files_succ c src apr fs fuel pending processed hp]
          rw [resolveStep_ok hilen hlk]
          exact hrun
        · rintro final hfin
          obtain ⟨h1, h2, h3, h4, h5, h6⟩ := hokk final hfin
          refine ⟨h1, ?_, ?_, h4, ?_, ?_⟩
          · intro x hx
            exact h2 x (List.mem_cons_of_mem _ hx)
          · intro x hx
            by_cases hxp : x = p
            · exact h2 x (hxp ▸ List.mem_cons_self _ _)
            · exact h3 x ((hmem2 x).mpr (Or.inl ⟨hx, hxp⟩))
          · intro x hx
            rcases h5 x hx with hx1 | ⟨pp, hpp, hre⟩
            · rcases List.mem_cons.mp hx1 with rfl | hx1
              · exact Or.inr ⟨p, hpmem, Reaches.refl p⟩
              · exact Or.inl hx1
            · rcases (hmem2 pp).mp hpp with ⟨hpend, _⟩ | ⟨hscan, _⟩
              · exact Or.inr ⟨pp, hpend, hre⟩
              · exact Or.inr ⟨p, hpmem, Reaches.head (hadj_p ▸ hscan) hre⟩
          · intro x hx
            rcases h6 x hx with hx1 | hx1
            · rcases List.mem_cons.mp hx1 with rfl | hx1
              · refine Or.inr ?_
                rw [hlk]
                rfl
              · exact Or.inl hx1
            · exact Or.inr hx1
        · intro hEX
          apply hexx
          rintro q ⟨pp, hpp, hre⟩
          rcases (hmem2 pp).mp hpp with ⟨hpend, _⟩ | ⟨hscan, _⟩
          · exact hEX q ⟨pp, hpend, hre⟩
          · exact hEX q ⟨p, hpmem, Reaches.head (hadj_p ▸ hscan) hre⟩

theorem process_pending_files_error (c : Nat → Nat) (src apr : Path) (fs : FileMap) :
    ∀ (fuel : Nat) (pending processed : List Path) (e : Path),
      process_pending_files c src apr fs fuel pending processed =
        some (Except.error e) →
      lookupFM fs e = none ∧ ∃ q, e = resolvedPath src apr q := by
  intro fuel
  induction fuel with
  | zero =>
    intro pending processed e h
    unfold process_pending_files at h
    split at h
    · simp at h
    · simp at h
  | succ fuel ih =>
    intro pending processed e h
    by_cases hp : pending = []
    · subst hp
      simp [process_pending_files] at h
    · rw [process_pending_files_succ c src apr fs fuel pending processed hp] at h
      have hilen : c fuel % pending.length < pending.length :=
        Nat.mod_lt _ (List.length_pos.mpr hp)
      cases hlk : lookupFM fs
          (resolvedPath src apr (pending.get ⟨c fuel % pending.length, hilen⟩)) with
      | none =>
        rw [resolveStep_error hilen hlk] at h
        obtain rfl :
            resolvedPath src apr (pending.get ⟨c fuel % pending.length, hilen⟩) = e := by
          simpa using h
        exact ⟨hlk, _, rfl⟩
      | some content =>
        rw [resolveStep_ok hilen hlk] at h
        exact ih _ _ _ h

/-- The resolution phase on any seed list without missing files: it ends
in `ok`, and the final processed set is exactly the set of identifiers
reachable from some seed through recognized include directives. -/
theorem resolveAll_characterization (c : Nat → Nat) (src apr : Path) (fs : FileMap)
    (seeds : List Path) (hnd : seeds.Nodup)
    (hseed : ∀ p ∈ seeds, (lookupFM fs (resolvedPath src apr p)).isSome = true)
    (hinc : ∀ pc ∈ fs, ∀ inc ∈ scanContent pc.2,
      (lookupFM fs (resolvedPath src apr inc)).isSome = true) :
    ∃ f, resolveAll c src apr fs seeds = some (Except.ok f) ∧ f.Nodup ∧
      ∀ q, (q ∈ f ↔ ∃ p ∈ seeds, Reaches (adjFM src apr fs) p q) := by
  have hadjU : ∀ p q : Path, q ∈ adjFM src apr fs p →
      q ∈ (universeFM fs seeds).toFinset := by
    intro p q hq
    rw [List.mem_toFinset]
    unfold universeFM
    exact List.mem_append.mpr (Or.inr (adjFM_subset_includesAll hq))
  have hfuel : ((universeFM fs seeds).toFinset \ ([] : List Path).toFinset).card <
      (universeFM fs seeds).length + 1 := by
    calc ((universeFM fs seeds).toFinset \ ([] : List Path).toFinset).card
        ≤ (universeFM fs seeds).toFinset.card :=
          Finset.card_le_card (Finset.sdiff_subset)
      _ ≤ (universeFM fs seeds).length := (universeFM fs seeds).toFinset_card_le
      _ < (universeFM fs seeds).length + 1 := Nat.lt_succ_self _
  obtain ⟨r, hrun, hok, hex⟩ := resolveMaster c src apr fs
    (universeFM fs seeds).toFinset hadjU ((universeFM fs seeds).length + 1)
    seeds [] hnd List.nodup_nil (by simp) (by
      intro x hx
      rw [List.mem_toFinset]
      unfold universeFM
      exact List.mem_append.mpr (Or.inl hx)) (by simp) hfuel
  obtain ⟨final, rfl⟩ := hex (by
    rintro q ⟨p, hp, hre⟩
    exact reaches_isSome hinc hre (hseed p hp))
  obtain ⟨h1, _, h3, h4, h5, _⟩ := hok final rfl
  refine ⟨final, hrun, h1, ?_⟩
  intro q
  constructor
  · intro hq
    rcases h5 q hq with hq1 | hq1
    · simp at hq1
    · exact hq1
  · rintro ⟨p, hp, hre⟩
    exact reaches_mem_of_closed h4 hre (h3 p hp)

/-- C1: for a file graph in which every seed's file and every referenced
file exists, the resolver's final Processed set is exactly the seeds plus
everything reachable from a seed through recognized include directives,
and this final set is independent of the order in which `set.pop()`
happens to remove identifiers from Pending (the two runs use two arbitrary
choice functions). -/
theorem spec_c1 (c1 c2 : Nat → Nat) (src apr : Path) (fs : FileMap)
    (seeds : List Path) (q : Path) (hnd : seeds.Nodup)
    (hseed : ∀ p ∈ seeds, (lookupFM fs (resolvedPath src apr p)).isSome = true)
    (hinc : ∀ pc ∈ fs, ∀ inc ∈ scanContent pc.2,
      (lookupFM fs (resolvedPath src apr inc)).isSome = true) :
    ∃ f1 f2, resolveAll c1 src apr fs seeds = some (Except.ok f1) ∧
      resolveAll c2 src apr fs seeds = some (Except.ok f2) ∧
      (q ∈ f1 ↔ q ∈ f2) ∧
      (q ∈ f1 ↔ (q ∈ seeds ∨ ∃ p ∈ seeds, Reaches (adjFM src apr fs) p q)) := by
  obtain ⟨f1, hrun1, -, hchar1⟩ :=
    resolveAll_characterization c1 src apr fs seeds hnd hseed hinc
  obtain ⟨f2, hrun2, -, hchar2⟩ :=
    resolveAll_characterization c2 src apr fs seeds hnd hseed hinc
  refine ⟨f1, f2, hrun1, hrun2, by rw [hchar1, hchar2], ?_⟩
  rw [hchar1]
  constructor
  · intro h
    exact Or.inr h
  · rintro (h | h)
    · exact ⟨q, h, Reaches.refl q⟩
    · exact h

/-- C2: on every finite file graph (cycles included, and regardless of the
pop order) the resolution loop terminates: run with fuel one larger than
the identifier universe it reaches a result rather than exhausting the
fuel, because each iteration moves one identifier of the finite universe
into Processed and processed identifiers are never popped again. -/
theorem spec_c2 (c : Nat → Nat) (src apr : Path) (fs : FileMap)
    (seeds : List Path) (hnd : seeds.Nodup) :
    ∃ r, resolveAll c src apr fs seeds = some r := by
  have hadjU : ∀ p q : Path, q ∈ adjFM src apr fs p →
      q ∈ (universeFM fs seeds).toFinset := by
    intro p q hq
    rw [List.mem_toFinset]
    unfold universeFM
    exact List.mem_append.mpr (Or.inr (adjFM_subset_includesAll hq))
  have hfuel : ((universeFM fs seeds).toFinset \ ([] : List Path).toFinset).card <
      (universeFM fs seeds).length + 1 := by
    calc ((universeFM fs seeds).toFinset \ ([] : List Path).toFinset).card
        ≤ (universeFM fs seeds).toFinset.card :=
          Finset.card_le_card (Finset.sdiff_subset)
      _ ≤ (universeFM fs seeds).length := (universeFM fs seeds).toFinset_card_le
      _ < (universeFM fs seeds).length + 1 := Nat.lt_succ_self _
  obtain ⟨r, hrun, -, -⟩ := resolveMaster c src apr fs
    (universeFM fs seeds).toFinset hadjU ((universeFM fs seeds).length + 1)
    seeds [] hnd List.nodup_nil (by simp) (by
      intro x hx
      rw [List.mem_toFinset]
      unfold universeFM
      exact List.mem_append.mpr (Or.inl hx)) (by simp) hfuel
  exact ⟨r, hrun⟩

/-- C3: the step invariants of the resolution loop.  Starting from
duplicate-free, disjoint Pending and Processed sets, one loop iteration
pops an identifier that was never processed before, moves it into
Processed, and the new state again consists of duplicate-free disjoint
sets; Processed only grows; the popped identifier is no longer pending;
and at every intermediate point of the insertion of the newly discovered
identifiers the pending set under construction stays disjoint from
Processed (so an identifier is never re-inserted after being processed,
and each identifier is moved from Pending to Processed exactly once). -/
theorem spec_c3 (src apr : Path) (fs : FileMap) (pending processed : List Path)
    (i : Nat) (h : i < pending.length) (pend2 proc1 : List Path)
    (hndP : pending.Nodup) (hndQ : processed.Nodup)
    (hdisj : ∀ x ∈ pending, x ∉ processed)
    (hstep : resolveStep src apr fs pending processed i h = Except.ok (pend2, proc1)) :
    pending.get ⟨i, h⟩ ∉ processed ∧
    proc1 = pending.get ⟨i, h⟩ :: processed ∧
    (∀ x ∈ processed, x ∈ proc1) ∧
    pend2.Nodup ∧ proc1.Nodup ∧
    (∀ x ∈ pend2, x ∉ proc1) ∧
    pending.get ⟨i, h⟩ ∉ pend2 ∧
    (∀ x ∈ removeOne pending (pending.get ⟨i, h⟩), x ∉ proc1) ∧
    (∀ L1 L2, adjFM src apr fs (pending.get ⟨i, h⟩) = L1 ++ L2 →
      ∀ x ∈ L1.foldl (insNew proc1) (removeOne pending (pending.get ⟨i, h⟩)),
        x ∉ proc1) := by
  set p := pending.get ⟨i, h⟩ with hpdef
  have hpmem : p ∈ pending := List.get_mem _ _ _
  have hpnotQ : p ∉ processed := hdisj p hpmem
  cases hlk : lookupFM fs (resolvedPath src apr p) with
  | none =>
    rw [resolveStep_error h hlk] at hstep
    simp at hstep
  | some content =>
    rw [resolveStep_ok h hlk] at hstep
    obtain ⟨hpe, hpr⟩ : (scanContent content).foldl (insNew (p :: processed))
        (removeOne pending p) = pend2 ∧ p :: processed = proc1 := by
      simpa using hstep
    subst hpr
    subst hpe
    have hadj_p : adjFM src apr fs p = scanContent content := adjFM_eq_of_lookup hlk
    have hmem2 : ∀ x, x ∈ (scanContent content).foldl (insNew (p :: processed))
          (removeOne pending p) ↔
        ((x ∈ pending ∧ x ≠ p) ∨ (x ∈ scanContent content ∧ x ∉ p :: processed)) := by
      intro x
      rw [mem_foldl_insNew, mem_removeOne hndP]
    have hdisj2 : ∀ x ∈ (scanContent content).foldl (insNew (p :: processed))
        (removeOne pending p), x ∉ p :: processed := by
      intro x hx
      rcases (hmem2 x).mp hx with ⟨hxp, hne⟩ | ⟨_, hnp⟩
      · intro hc
        rcases List.mem_cons.mp hc with rfl | hc
        · exact hne rfl
        · exact hdisj x hxp hc
      · exact hnp
    refine ⟨hpnotQ, rfl, fun x hx => List.mem_cons_of_mem _ hx,
      nodup_foldl_insNew _ _ (nodup_removeOne p hndP),
      List.nodup_cons.mpr ⟨hpnotQ, hndQ⟩, hdisj2, ?_, ?_, ?_⟩
    · intro hc
      exact hdisj2 p hc (List.mem_cons_self _ _)
    · intro x hx
      have hx2 := (mem_removeOne hndP).mp hx
      intro hc
      rcases List.mem_cons.mp hc with rfl | hc
      · exact hx2.2 rfl
      · exact hdisj x hx2.1 hc
    · intro L1 L2 hsplit x hx
      have hx2 := (mem_foldl_insNew L1 _).mp hx
      rcases hx2 with hx2 | ⟨_, hnp⟩
      · intro hc
        rcases List.mem_cons.mp hc with rfl | hc
        · exact ((mem_removeOne hndP).mp hx2).2 rfl
        · exact hdisj x ((mem_removeOne hndP).mp hx2).1 hc
      · exact hnp

/-- C10: every identifier the expansion phase inserts into Pending comes
from a regex capture and therefore starts with `aprinter/` (is classified
LibraryOrigin); consequently every ProjectOrigin identifier of the final
Processed set is one of the seeds — expansion never discovers a
project-origin file. -/
theorem spec_c10 (c : Nat → Nat) (src apr : Path) (fs : FileMap)
    (seeds finalSet : List Path) (hnd : seeds.Nodup)
    (hrun : resolveAll c src apr fs seeds = some (Except.ok finalSet)) :
    (∀ content inc, inc ∈ scanContent content → file_is_from_aprinter inc = true) ∧
    (∀ q ∈ finalSet, file_is_from_aprinter q = false → q ∈ seeds) := by
  have hscan : ∀ (content : Content) (inc : Path), inc ∈ scanContent content →
      file_is_from_aprinter inc = true := by
    intro content inc hinc
    obtain ⟨line, -, hm⟩ := List.mem_filterMap.mp hinc
    have hpre : ∃ t, inc = strL "aprinter/" ++ t := by
      simp only [matchIncludeLine] at hm
      split at hm
      case h_2 => simp at hm
      case h_1 =>
        split at hm
        case isFalse => simp at hm
        case isTrue =>
          split at hm
          case h_2 => simp at hm
          case h_1 =>
            split at hm
            case isFalse => simp at hm
            case isTrue =>
              split at hm
              case h_2 => simp at hm
              case h_1 trev _ =>
                split at hm
                case isTrue => simp at hm
                case isFalse =>
                  exact ⟨trev.reverse, by simpa using hm.symm⟩
    obtain ⟨t, rfl⟩ := hpre
    unfold file_is_from_aprinter
    rw [List.take_left' (by decide)]
    simp
  refine ⟨hscan, ?_⟩
  intro q hq hfa
  have hadjU : ∀ p q : Path, q ∈ adjFM src apr fs p →
      q ∈ (universeFM fs seeds).toFinset := by
    intro p q hq2
    rw [List.mem_toFinset]
    unfold universeFM
    exact List.mem_append.mpr (Or.inr (adjFM_subset_includesAll hq2))
  have hfuel : ((universeFM fs seeds).toFinset \ ([] : List Path).toFinset).card <
      (universeFM fs seeds).length + 1 := by
    calc ((universeFM fs seeds).toFinset \ ([] : List Path).toFinset).card
        ≤ (universeFM fs seeds).toFinset.card :=
          Finset.card_le_card (Finset.sdiff_subset)
      _ ≤ (universeFM fs seeds).length := (universeFM fs seeds).toFinset_card_le
      _ < (universeFM fs seeds).length + 1 := Nat.lt_succ_self _
  obtain ⟨r, hrun2, hok, -⟩ := resolveMaster c src apr fs
    (universeFM fs seeds).toFinset hadjU ((universeFM fs seeds).length + 1)
    seeds [] hnd List.nodup_nil (by simp) (by
      intro x hx
      rw [List.mem_toFinset]
      unfold universeFM
      exact List.mem_append.mpr (Or.inl hx)) (by simp) hfuel
  obtain rfl : Except.ok finalSet = r := by
    have h2 : resolveAll c src apr fs seeds = some r := hrun2
    rw [hrun] at h2
    simpa using h2
  obtain ⟨-, -, -, -, h5, -⟩ := hok finalSet rfl
  rcases h5 q hq with hq1 | ⟨p, hp, hre⟩
  · simp at hq1
  · rcases reaches_cases hre with rfl | ⟨x, hx⟩
    · exact hp
    · exfalso
      unfold adjFM at hx
      cases hlk : lookupFM fs (resolvedPath src apr x) with
      | none => rw [hlk] at hx; simp at hx
      | some content =>
        rw [hlk] at hx
        rw [hscan content q hx] at hfa
        simp at hfa

theorem pjoin_nil (b : Path) : pjoin [] b = b := by
  unfold pjoin
  rw [if_pos rfl]

theorem pjoin_cons {a b : Path} (ha : a ≠ []) : pjoin a b = a ++ '/' :: b := by
  unfold pjoin
  rw [if_neg ha]

theorem append_slash_ne_aprinter (a b : Path) : a ++ '/' :: b ≠ strL "aprinter" := by
  intro h
  have hmem : '/' ∈ strL "aprinter" := by
    rw [← h]
    exact List.mem_append.mpr (Or.inr (List.mem_cons_self _ _))
  exact absurd hmem (by decide)

theorem pjoin_ne_nil {a : Path} (b : Path) (ha : a ≠ []) : pjoin a b ≠ [] := by
  rw [pjoin_cons ha]
  simp

theorem findsReg_ne_nil {f : FsForest} {segs : List Path} (h : FindsReg f segs) :
    segs ≠ [] := by
  cases h <;> simp

theorem findsReg_nil {segs : List Path} (h : FindsReg FsForest.nil segs) : False := by
  cases h with
  | base hmemb => simp only [forestMem] at hmemb
  | into hmemb _ => simp only [forestMem] at hmemb

theorem joinSegs_cons {a : Path} {rest : List Path} (h : rest ≠ []) :
    joinSegs (a :: rest) = a ++ '/' :: joinSegs rest := by
  cases rest with
  | nil => exact absurd rfl h
  | cons b r => rfl

theorem findsReg_cons {e : FsTree} {rest : FsForest} {segs : List Path} :
    FindsReg (FsForest.cons e rest) segs ↔
      ((∃ name, e = FsTree.efile name ∧ segs = [name]) ∨
       (∃ name ch s2, e = FsTree.edir name ch ∧ segs = name :: s2 ∧ FindsReg ch s2) ∨
       FindsReg rest segs) := by
  constructor
  · intro h
    cases h with
    | base hmemb =>
      simp only [forestMem] at hmemb
      rcases hmemb with he | hmemb
      · exact Or.inl ⟨_, he.symm, rfl⟩
      · exact Or.inr (Or.inr (FindsReg.base hmemb))
    | into hmemb hch =>
      simp only [forestMem] at hmemb
      rcases hmemb with he | hmemb
      · exact Or.inr (Or.inl ⟨_, _, _, he.symm, rfl, hch⟩)
      · exact Or.inr (Or.inr (FindsReg.into hmemb hch))
  · rintro (⟨name, rfl, rfl⟩ | ⟨name, ch, s2, rfl, rfl, hch⟩ | h)
    · exact FindsReg.base (by simp only [forestMem]; exact Or.inl trivial)
    · exact FindsReg.into (by simp only [forestMem]; exact Or.inl trivial) hch
    · cases h with
      | base hmemb => exact FindsReg.base (by simp only [forestMem]; exact Or.inr hmemb)
      | into hmemb hch => exact FindsReg.into (by simp only [forestMem]; exact Or.inr hmemb) hch

mutual

theorem collectEntChar (dp : Path) (hdp : dp ≠ []) (e : FsTree) (out : List Path)
    (hok : collectEnt dp e = Except.ok out) :
    ∀ p, p ∈ out ↔ (endsDotH p = true ∧
      ((∃ name, e = FsTree.efile name ∧ p = dp ++ '/' :: name) ∨
       (∃ name ch s2, e = FsTree.edir name ch ∧ FindsReg ch s2 ∧
         p = dp ++ '/' :: (name ++ '/' :: joinSegs s2)))) := by
  cases e with
  | efile name =>
    simp only [collectEnt] at hok
    obtain rfl : (if endsDotH (pjoin dp name) then [pjoin dp name] else []) = out := by
      simpa using hok
    intro p
    rw [pjoin_cons hdp]
    by_cases hend : endsDotH (dp ++ '/' :: name)
    · rw [if_pos hend]
      constructor
      · intro hp
        obtain rfl := List.mem_singleton.mp hp
        exact ⟨hend, Or.inl ⟨name, rfl, rfl⟩⟩
      · rintro ⟨hp, ⟨name2, he, rfl⟩ | ⟨name2, ch2, s2, he, -, -⟩⟩
        · obtain rfl : name = name2 := by injection he
          exact List.mem_singleton.mpr rfl
        · exact absurd he (by simp)
    · rw [if_neg hend]
      constructor
      · intro hp
        simp at hp
      · rintro ⟨hp, ⟨name2, he, rfl⟩ | ⟨name2, ch2, s2, he, -, -⟩⟩
        · obtain rfl : name = name2 := by injection he
          exact absurd hp hend
        · exact absurd he (by simp)
  | ebad name =>
    simp only [collectEnt] at hok
    exact absurd hok (by simp)
  | eother name =>
    simp only [collectEnt] at hok
    obtain rfl : ([] : List Path) = out := by simpa using hok
    intro p
    constructor
    · intro hp
      simp at hp
    · rintro ⟨hp, ⟨name2, he, rfl⟩ | ⟨name2, ch2, s2, he, -, -⟩⟩
      · exact absurd he (by simp)
      · exact absurd he (by simp)
  | edir name ch =>
    simp only [collectEnt] at hok
    rw [pjoin_cons hdp, if_neg (append_slash_ne_aprinter dp name)] at hok
    have hch := collectForestChar (dp ++ '/' :: name) (by simp) ch out hok
    intro p
    rw [hch p]
    constructor
    · rintro ⟨hend, segs, hfr, rfl⟩
      refine ⟨hend, Or.inr ⟨name, ch, segs, rfl, hfr, ?_⟩⟩
      simp [List.append_assoc]
    · rintro ⟨hend, ⟨name2, he, rfl⟩ | ⟨name2, ch2, s2, he, hfr, rfl⟩⟩
      · exact absurd he (by simp)
      · obtain ⟨rfl, rfl⟩ : name = name2 ∧ ch = ch2 := by
          refine ⟨?_, ?_⟩ <;> injection he
        refine ⟨hend, s2, hfr, ?_⟩
        simp [List.append_assoc]

theorem collectForestChar (dp : Path) (hdp : dp ≠ []) (f : FsForest) (out : List Path)
    (hok : collectForest dp f = Except.ok out) :
    ∀ p, p ∈ out ↔ (endsDotH p = true ∧
      ∃ segs, FindsReg f segs ∧ p = dp ++ '/' :: joinSegs segs) := by
  cases f with
  | nil =>
    simp only [collectForest] at hok
    obtain rfl : ([] : List Path) = out := by simpa using hok
    intro p
    constructor
    · intro hp
      simp at hp
    · rintro ⟨-, segs, hfr, -⟩
      exact absurd hfr (fun h => findsReg_nil h)
  | cons e rest =>
    simp only [collectForest] at hok
    cases he : collectEnt dp e with
    | error er =>
      rw [he] at hok
      simp at hok
    | ok a =>
      rw [he] at hok
      cases hr : collectForest dp rest with
      | error er =>
        rw [hr] at hok
        simp at hok
      | ok b =>
        rw [hr] at hok
        obtain rfl : a ++ b = out := by simpa using hok
        have iha := collectEntChar dp hdp e a he
        have ihb := collectForestChar dp hdp rest b hr
        intro p
        rw [List.mem_append, iha p, ihb p]
        constructor
        · rintro (⟨hend, ⟨name, rfl, rfl⟩ | ⟨name, ch, s2, rfl, hfr, rfl⟩⟩ |
            ⟨hend, segs, hfr, rfl⟩)
          · refine ⟨hend, [name], ?_, rfl⟩
            exact findsReg_cons.mpr (Or.inl ⟨name, rfl, rfl⟩)
          · refine ⟨hend, name :: s2, ?_, ?_⟩
            · exact findsReg_cons.mpr (Or.inr (Or.inl ⟨name, ch, s2, rfl, rfl, hfr⟩))
            · rw [joinSegs_cons (findsReg_ne_nil hfr)]
          · exact ⟨hend, segs, findsReg_cons.mpr (Or.inr (Or.inr hfr)), rfl⟩
        · rintro ⟨hend, segs, hfr, rfl⟩
          rcases findsReg_cons.mp hfr with ⟨name, rfl, rfl⟩ |
            ⟨name, ch, s2, rfl, rfl, hfr2⟩ | hfr2
          · exact Or.inl ⟨hend, Or.inl ⟨name, rfl, rfl⟩⟩
          · refine Or.inl ⟨hend, Or.inr ⟨name, ch, s2, rfl, hfr2, ?_⟩⟩
            rw [joinSegs_cons (findsReg_ne_nil hfr2)]
          · exact Or.inr ⟨hend, segs, hfr2, rfl⟩

end

theorem collectTopChar (f : FsForest) (hnames : topNamesOk f = true) (out : List Path)
    (hok : collectForest [] f = Except.ok out) :
    ∀ p, p ∈ out ↔ (endsDotH p = true ∧
      ∃ segs, FindsReg f segs ∧ p = joinSegs segs ∧
        segs.head? ≠ some (strL "aprinter")) := by
  cases f with
  | nil =>
    simp only [collectForest] at hok
    obtain rfl : ([] : List Path) = out := by simpa using hok
    intro p
    constructor
    · intro hp
      simp at hp
    · rintro ⟨-, segs, hfr, -⟩
      exact absurd hfr (fun h => findsReg_nil h)
  | cons e rest =>
    have hname : entName e ≠ [] := by
      simp only [topNamesOk, Bool.and_eq_true] at hnames
      intro hc
      rw [hc] at hnames
      simpa using hnames.1
    have hnames2 : topNamesOk rest = true := by
      simp only [topNamesOk, Bool.and_eq_true] at hnames
      exact hnames.2
    simp only [collectForest] at hok
    cases e with
    | ebad name =>
      simp only [collectEnt] at hok
      simp at hok
    | eother name =>
      simp only [collectEnt] at hok
      cases hr : collectForest [] rest with
      | error er =>
        rw [hr] at hok
        simp at hok
      | ok b =>
        rw [hr] at hok
        obtain rfl : [] ++ b = out := by simpa using hok
        have ihb := collectTopChar rest hnames2 b hr
        intro p
        rw [List.nil_append, ihb p]
        constructor
        · rintro ⟨hend, segs, hfr, rfl, hhead⟩
          exact ⟨hend, segs, findsReg_cons.mpr (Or.inr (Or.inr hfr)), rfl, hhead⟩
        · rintro ⟨hend, segs, hfr, rfl, hhead⟩
          rcases findsReg_cons.mp hfr with ⟨name2, heq, rfl⟩ |
            ⟨name2, ch2, s2, heq, rfl, hfr2⟩ | hfr2
          · exact absurd heq (by simp)
          · exact absurd heq (by simp)
          · exact ⟨hend, segs, hfr2, rfl, hhead⟩
    | efile name =>
      simp only [collectEnt, pjoin_nil] at hok
      cases hr : collectForest [] rest with
      | error er =>
        rw [hr] at hok
        simp at hok
      | ok b =>
        rw [hr] at hok
        obtain rfl : (if endsDotH name then [name] else []) ++ b = out := by
          simpa using hok
        have ihb := collectTopChar rest hnames2 b hr
        intro p
        rw [List.mem_append, ihb p]
        constructor
        · rintro (hp | ⟨hend, segs, hfr, rfl, hhead⟩)
          · by_cases hend : endsDotH name
            · rw [if_pos hend] at hp
              obtain rfl := List.mem_singleton.mp hp
              refine ⟨hend, [p], findsReg_cons.mpr (Or.inl ⟨p, rfl, rfl⟩), rfl, ?_⟩
              intro hcontra
              obtain rfl : p = strL "aprinter" := by simpa using hcontra
              exact absurd hend (by decide)
            · rw [if_neg hend] at hp
              simp at hp
          · exact ⟨hend, segs, findsReg_cons.mpr (Or.inr (Or.inr hfr)), rfl, hhead⟩
        · rintro ⟨hend, segs, hfr, rfl, hhead⟩
          rcases findsReg_cons.mp hfr with ⟨name2, heq, rfl⟩ |
            ⟨name2, ch2, s2, heq, rfl, hfr2⟩ | hfr2
          · obtain rfl : name = name2 := by injection heq
            refine Or.inl ?_
            rw [if_pos (by simpa using hend)]
            exact List.mem_singleton.mpr rfl
          · exact absurd heq (by simp)
          · exact Or.inr ⟨hend, segs, hfr2, rfl, hhead⟩
    | edir name ch =>
      simp only [collectEnt, pjoin_nil] at hok
      have hnamed : entName (FsTree.edir name ch) = name := rfl
      rw [hnamed] at hname
      by_cases hap : name = strL "aprinter"
      · rw [if_pos hap] at hok
        cases hr : collectForest [] rest with
        | error er =>
          rw [hr] at hok
          simp at hok
        | ok b =>
          rw [hr] at hok
          obtain rfl : [] ++ b = out := by simpa using hok
          have ihb := collectTopChar rest hnames2 b hr
          intro p
          rw [List.nil_append, ihb p]
          constructor
          · rintro ⟨hend, segs, hfr, rfl, hhead⟩
            exact ⟨hend, segs, findsReg_cons.mpr (Or.inr (Or.inr hfr)), rfl, hhead⟩
          · rintro ⟨hend, segs, hfr, rfl, hhead⟩
            rcases findsReg_cons.mp hfr with ⟨name2, heq, rfl⟩ |
              ⟨name2, ch2, s2, heq, rfl, hfr2⟩ | hfr2
            · exact absurd heq (by simp)
            · obtain rfl : name = name2 := by injection heq
              exact absurd (by simp [hap]) hhead
            · exact ⟨hend, segs, hfr2, rfl, hhead⟩
      · rw [if_neg hap] at hok
        cases he : collectForest name ch with
        | error er =>
          rw [he] at hok
          simp at hok
        | ok a =>
          rw [he] at hok
          cases hr : collectForest [] rest with
          | error er =>
            rw [hr] at hok
            simp at hok
          | ok b =>
            rw [hr] at hok
            obtain rfl : a ++ b = out := by simpa using hok
            have iha := collectForestChar name hname ch a he
            have ihb := collectTopChar rest hnames2 b hr
            intro p
            rw [List.mem_append, iha p, ihb p]
            constructor
            · rintro (⟨hend, s2, hfr2, rfl⟩ | ⟨hend, segs, hfr, rfl, hhead⟩)
              · refine ⟨hend, name :: s2,
                  findsReg_cons.mpr (Or.inr (Or.inl ⟨name, ch, s2, rfl, rfl, hfr2⟩)),
                  (joinSegs_cons (findsReg_ne_nil hfr2)).symm, ?_⟩
                intro hcontra
                exact hap (by simpa using hcontra)
              · exact ⟨hend, segs, findsReg_cons.mpr (Or.inr (Or.inr hfr)), rfl, hhead⟩
            · rintro ⟨hend, segs, hfr, rfl, hhead⟩
              rcases findsReg_cons.mp hfr with ⟨name2, heq, rfl⟩ |
                ⟨name2, ch2, s2, heq, rfl, hfr2⟩ | hfr2
              · exact absurd heq (by simp)
              · obtain ⟨rfl, rfl⟩ : name = name2 ∧ ch = ch2 := by
                  refine ⟨?_, ?_⟩ <;> injection heq
                refine Or.inl ⟨hend, s2, hfr2, ?_⟩
                rw [joinSegs_cons (findsReg_ne_nil hfr2)]
              · exact Or.inr ⟨hend, segs, hfr2, rfl, hhead⟩

/-- C9: a successful seeding walk collects exactly the paths of regular
files reachable by tree navigation from the project root whose joined
relative path ends in `.h`, except that nothing under the top-level
directory named `aprinter` is collected (and only that directory is
skipped); non-regular entries and files with other suffixes are never
seeds. -/
theorem spec_c9 (root : FsForest) (seeds : List Path) (p : Path)
    (hnames : topNamesOk root = true)
    (hok : collect_files root = Except.ok seeds) :
    p ∈ seeds ↔ (endsDotH p = true ∧
      ∃ segs, FindsReg root segs ∧ p = joinSegs segs ∧
        segs.head? ≠ some (strL "aprinter")) := by
  unfold collect_files at hok
  exact collectTopChar root hnames seeds hok p

theorem lookupFM_cons (q : Path) (c : Content) (fs : FileMap) (x : Path) :
    lookupFM ((q, c) :: fs) x = if q = x then some c else lookupFM fs x := rfl

theorem pjoin_inj {base a b : Path} (h : pjoin base a = pjoin base b) : a = b := by
  unfold pjoin at h
  by_cases hb : base = []
  · rw [if_pos hb, if_pos hb] at h
    exact h
  · rw [if_neg hb, if_neg hb] at h
    have h2 := List.append_cancel_left h
    injection h2

theorem slash_mem_of_fifa {fp : Path} (h : file_is_from_aprinter fp = true) :
    '/' ∈ fp := by
  unfold file_is_from_aprinter at h
  rw [decide_eq_true_eq] at h
  have hfp : fp = strL "aprinter/" ++ fp.drop 9 := by
    conv_lhs => rw [← List.take_append_drop 9 fp]
    rw [h]
  rw [hfp]
  exact List.mem_append.mpr (Or.inl (by decide))

theorem slash_mem_pjoin {fp : Path} (base : Path) (h : '/' ∈ fp) :
    '/' ∈ pjoin base fp := by
  unfold pjoin
  split
  · exact h
  · exact List.mem_append.mpr (Or.inr (List.mem_cons_self _ _))

theorem dirname_length_lt {p : Path} (h : '/' ∈ p) :
    (dirname p).length < p.length := by
  unfold dirname
  rw [List.length_reverse, List.length_drop]
  have h1 : p.reverse.dropWhile (fun c => ¬ c = '/') ≠ [] := by
    intro hc
    rw [List.dropWhile_eq_nil_iff] at hc
    have := hc '/' (List.mem_reverse.mpr h)
    simp at this
  have h2 : (p.reverse.dropWhile (fun c => ¬ c = '/')).length ≤ p.reverse.length :=
    (List.dropWhile_sublist _).length_le
  rw [List.length_reverse] at h2
  have h3 : 0 < (p.reverse.dropWhile (fun c => ¬ c = '/')).length :=
    List.length_pos.mpr h1
  omega

theorem dirname_ne_self {p : Path} (h : '/' ∈ p) : p ≠ dirname p := by
  intro hc
  have := dirname_length_lt h
  rw [← hc] at this
  exact Nat.lt_irrefl _ this

theorem mkdir_p_eq (path : Path) (fl : FileMap) (dl : List Path) :
    mkdir_p path ⟨fl, dl⟩ =
      if (lookupFM fl path).isSome then Except.error path
      else Except.ok ⟨fl, path :: dl⟩ := rfl

theorem copyFile_eq (s t : Path) (fl : FileMap) (dl : List Path) :
    copyFile s t ⟨fl, dl⟩ =
      match lookupFM fl s with
      | none => Except.error s
      | some c => if t ∈ dl then Except.error t
          else Except.ok ⟨(t, c) :: fl, dl⟩ := rfl

/-- Characterization of one successful mirror pass over the library-origin
list `L` from state `G`: the read and write logs, the frame condition on
files not written, monotonicity of files and directories, the upper bound
on created directories, and — facts forced by success — that no file sits
at any destination's parent directory, no destination is a directory, and
no destination collides with another destination's parent directory;
finally, when `L` is duplicate-free and no library source path collides
with a destination, each destination ends up holding its library source's
content, which was readable at the start. -/
theorem copyRunSpec (apr src : Path) :
    ∀ (L : List Path) (G G2 : MFS) (rs ws : List Path),
      copyRun apr src L G = Except.ok (G2, rs, ws) →
      rs = L.map (fun fp => pjoin apr fp) ∧
      ws = L.map (fun fp => pjoin src fp) ∧
      (∀ q, q ∉ ws → lookupFM G2.files q = lookupFM G.files q) ∧
      (∀ q, (lookupFM G.files q).isSome = true →
        (lookupFM G2.files q).isSome = true) ∧
      (∀ d, d ∈ G.dirs → d ∈ G2.dirs) ∧
      (∀ d ∈ G2.dirs, d ∈ G.dirs ∨ ∃ fp ∈ L, d = dirname (pjoin src fp)) ∧
      (∀ fp ∈ L, (lookupFM G.files (dirname (pjoin src fp))).isSome = false) ∧
      (∀ fp ∈ L, pjoin src fp ∉ G.dirs) ∧
      (∀ fp ∈ L, ∀ fq ∈ L, pjoin src fq ≠ dirname (pjoin src fp)) ∧
      ((L.Nodup ∧ ∀ fp ∈ L, ∀ fq ∈ L, pjoin apr fp ≠ pjoin src fq) →
        ((∀ fp ∈ L, lookupFM G2.files (pjoin src fp) =
            lookupFM G.files (pjoin apr fp)) ∧
         (∀ fp ∈ L, (lookupFM G.files (pjoin apr fp)).isSome = true))) := by
  intro L
  induction L with
  | nil =>
    intro G G2 rs ws h
    simp only [copyRun, Except.ok.injEq, Prod.mk.injEq] at h
    obtain ⟨rfl, rfl, rfl⟩ := h
    refine ⟨rfl, rfl, fun q _ => rfl, fun q hq => hq, fun d hd => hd, ?_, ?_, ?_, ?_, ?_⟩
    · intro d hd
      exact Or.inl hd
    · intro fp hfp
      simp at hfp
    · intro fp hfp
      simp at hfp
    · intro fp hfp
      simp at hfp
    · intro _
      constructor <;> intro fp hfp <;> simp at hfp
  | cons fp rest ih =>
    intro G G2 rs ws h
    obtain ⟨gf, gd⟩ := G
    dsimp only
    simp only [copyRun] at h
    by_cases hfile : (lookupFM gf (dirname (pjoin src fp))).isSome = true
    · rw [mkdir_p_eq, if_pos hfile] at h
      simp at h
    · rw [Bool.not_eq_true] at hfile
      rw [mkdir_p_eq, if_neg (by rw [hfile]; simp)] at h
      dsimp only at h
      cases hread : lookupFM gf (pjoin apr fp) with
      | none =>
        rw [copyFile_eq, hread] at h
        simp at h
      | some c0 =>
        rw [copyFile_eq, hread] at h
        dsimp only at h
        by_cases hdd : pjoin src fp ∈ dirname (pjoin src fp) :: gd
        · rw [if_pos hdd] at h
          simp at h
        · rw [if_neg hdd] at h
          dsimp only at h
          rw [List.mem_cons] at hdd
          push_neg at hdd
          obtain ⟨hdd1, hdd2⟩ := hdd
          cases hrec : copyRun apr src rest
              ⟨(pjoin src fp, c0) :: gf, dirname (pjoin src fp) :: gd⟩ with
          | error e =>
            rw [hrec] at h
            simp at h
          | ok res =>
            obtain ⟨G3, rs3, ws3⟩ := res
            rw [hrec] at h
            simp only [Except.ok.injEq, Prod.mk.injEq] at h
            obtain ⟨rfl, rfl, rfl⟩ := h
            obtain ⟨i1, i2, i3, i4, i5, i6, i7, i8, i9, i10⟩ :=
              ih ⟨(pjoin src fp, c0) :: gf, dirname (pjoin src fp) :: gd⟩ G3 rs3 ws3 hrec
            dsimp only at i3 i4 i5 i6 i7 i8 i10
            have hTne : ∀ fq ∈ rest, pjoin src fp ≠ dirname (pjoin src fq) := by
              intro fq hfq hc
              have h7 := i7 fq hfq
              rw [lookupFM_cons, if_pos hc] at h7
              simp at h7
            refine ⟨?_, ?_, ?_, ?_, ?_, ?_, ?_, ?_, ?_, ?_⟩
            · rw [List.map_cons, i1]
            · rw [List.map_cons, i2]
            · intro q hq
              rw [List.mem_cons] at hq
              push_neg at hq
              rw [i3 q hq.2, lookupFM_cons, if_neg (fun hc => hq.1 hc.symm)]
            · intro q hq
              apply i4
              rw [lookupFM_cons]
              by_cases hTq : pjoin src fp = q
              · rw [if_pos hTq]
                simp
              · rw [if_neg hTq]
                exact hq
            · intro d hd
              exact i5 d (List.mem_cons_of_mem _ hd)
            · intro d hd
              rcases i6 d hd with hd2 | ⟨fq, hfq, rfl⟩
              · rcases List.mem_cons.mp hd2 with rfl | hd3
                · exact Or.inr ⟨fp, List.mem_cons_self _ _, rfl⟩
                · exact Or.inl hd3
              · exact Or.inr ⟨fq, List.mem_cons_of_mem _ hfq, rfl⟩
            · intro fq hfq
              rcases List.mem_cons.mp hfq with rfl | hfq
              · exact hfile
              · have h7 := i7 fq hfq
                rw [lookupFM_cons, if_neg (hTne fq hfq)] at h7
                exact h7
            · intro fq hfq
              rcases List.mem_cons.mp hfq with rfl | hfq
              · exact hdd2
              · exact fun hc => i8 fq hfq (List.mem_cons_of_mem _ hc)
            · intro fp2 hfp2 fq2 hfq2
              rcases List.mem_cons.mp hfp2 with rfl | hfp2r
              · rcases List.mem_cons.mp hfq2 with rfl | hfq2r
                · exact fun hc => hdd1 hc
                · exact fun hc => i8 fq2 hfq2r (hc ▸ List.mem_cons_self _ _)
              · rcases List.mem_cons.mp hfq2 with rfl | hfq2r
                · exact hTne fp2 hfp2r
                · exact i9 fp2 hfp2r fq2 hfq2r
            · rintro ⟨hnd, hsep⟩
              rw [List.nodup_cons] at hnd
              obtain ⟨hfp_nin, hndr⟩ := hnd
              have hsepr : ∀ fp2 ∈ rest, ∀ fq2 ∈ rest,
                  pjoin apr fp2 ≠ pjoin src fq2 := by
                intro fp2 hfp2 fq2 hfq2
                exact hsep fp2 (List.mem_cons_of_mem _ hfp2)
                  fq2 (List.mem_cons_of_mem _ hfq2)
              obtain ⟨iA, iB⟩ := i10 ⟨hndr, hsepr⟩
              constructor
              · intro fp2 hfp2
                rcases List.mem_cons.mp hfp2 with rfl | hfp2
                · have hnin : pjoin src fp2 ∉ ws3 := by
                    rw [i2]
                    intro hc
                    obtain ⟨fq, hfq, hqe⟩ := List.mem_map.mp hc
                    obtain rfl : fq = fp2 := pjoin_inj hqe
                    exact hfp_nin hfq
                  rw [i3 _ hnin, lookupFM_cons, if_pos rfl, hread]
                · have := iA fp2 hfp2
                  rw [lookupFM_cons, if_neg (fun hc =>
                    hsep fp2 (List.mem_cons_of_mem _ hfp2)
                      fp (List.mem_cons_self _ _) hc.symm)] at this
                  exact this
              · intro fp2 hfp2
                rcases List.mem_cons.mp hfp2 with rfl | hfp2
                · rw [hread]
                  rfl
                · have := iB fp2 hfp2
                  rw [lookupFM_cons, if_neg (fun hc =>
                    hsep fp2 (List.mem_cons_of_mem _ hfp2)
                      fp (List.mem_cons_self _ _) hc.symm)] at this
                  exact this

/-- Success of a mirror pass: when no destination's parent directory is
occupied by a file, every library source is readable, no destination
collides with an existing or to-be-created directory, and no library
source path collides with a destination, the pass succeeds. -/
theorem copyRunOk (apr src : Path) :
    ∀ (L : List Path) (gf : FileMap) (gd : List Path),
      (∀ fp ∈ L, (lookupFM gf (dirname (pjoin src fp))).isSome = false) →
      (∀ fp ∈ L, (lookupFM gf (pjoin apr fp)).isSome = true) →
      (∀ fp ∈ L, pjoin src fp ∉ gd) →
      (∀ fp ∈ L, ∀ fq ∈ L, pjoin src fq ≠ dirname (pjoin src fp)) →
      (∀ fp ∈ L, ∀ fq ∈ L, pjoin apr fp ≠ pjoin src fq) →
      ∃ G2 rs ws, copyRun apr src L ⟨gf, gd⟩ = Except.ok (G2, rs, ws) := by
  intro L
  induction L with
  | nil =>
    intro gf gd _ _ _ _ _
    exact ⟨⟨gf, gd⟩, [], [], rfl⟩
  | cons fp rest ih =>
    intro gf gd h1 h2 h3 h4 h5
    have hfp : fp ∈ fp :: rest := List.mem_cons_self _ _
    obtain ⟨c0, hc0⟩ := Option.isSome_iff_exists.mp (h2 fp hfp)
    obtain ⟨G2, rs, ws, hrec⟩ := ih ((pjoin src fp, c0) :: gf)
        (dirname (pjoin src fp) :: gd)
      (by
        intro fq hfq
        rw [lookupFM_cons, if_neg (h4 fq (List.mem_cons_of_mem _ hfq) fp hfp)]
        exact h1 fq (List.mem_cons_of_mem _ hfq))
      (by
        intro fq hfq
        rw [lookupFM_cons,
          if_neg (fun hc => h5 fq (List.mem_cons_of_mem _ hfq) fp hfp hc.symm)]
        exact h2 fq (List.mem_cons_of_mem _ hfq))
      (by
        intro fq hfq hc
        rcases List.mem_cons.mp hc with hc2 | hc2
        · exact h4 fp hfp fq (List.mem_cons_of_mem _ hfq) hc2
        · exact h3 fq (List.mem_cons_of_mem _ hfq) hc2)
      (by
        intro fq hfq fr hfr
        exact h4 fq (List.mem_cons_of_mem _ hfq) fr (List.mem_cons_of_mem _ hfr))
      (by
        intro fq hfq fr hfr
        exact h5 fq (List.mem_cons_of_mem _ hfq) fr (List.mem_cons_of_mem _ hfr))
    refine ⟨G2, pjoin apr fp :: rs, pjoin src fp :: ws, ?_⟩
    simp only [copyRun]
    rw [mkdir_p_eq, if_neg (by rw [h1 fp hfp]; simp)]
    dsimp only
    rw [copyFile_eq, hc0]
    dsimp only
    rw [if_neg (by
      intro hc
      rcases List.mem_cons.mp hc with hc2 | hc2
      · exact h4 fp hfp fp hfp hc2
      · exact h3 fp hfp hc2)]
    dsimp only
    rw [hrec]

/-- C6: the Mirror touches only library-origin material: a ProjectOrigin
identifier of the Processed set is never read from the library root and
never written into the project tree, every written destination is the
project-tree path of some LibraryOrigin identifier (strictly under the
reserved `aprinter` subdirectory), and every other file of the filesystem
is left unchanged. -/
theorem spec_c6 (apr src : Path) (processed : List Path) (fs fs2 : MFS)
    (rs ws : List Path) (p q : Path)
    (hrun : copy_aprinter_files apr src processed fs = Except.ok (fs2, rs, ws))
    (hp : p ∈ processed) (hfa : file_is_from_aprinter p = false) :
    (pjoin apr p ∉ rs) ∧ (pjoin src p ∉ ws) ∧
    (q ∈ ws → ∃ fp, file_is_from_aprinter fp = true ∧ q = pjoin src fp) ∧
    ((¬ ∃ fp, file_is_from_aprinter fp = true ∧ q = pjoin src fp) →
      lookupFM fs2.files q = lookupFM fs.files q) := by
  unfold copy_aprinter_files at hrun
  obtain ⟨c1, c2, c3, -, -, -, -, -, -, -⟩ := copyRunSpec apr src _ _ _ _ _ hrun
  refine ⟨?_, ?_, ?_, ?_⟩
  · intro hc
    rw [c1] at hc
    obtain ⟨fq, hfq, hqe⟩ := List.mem_map.mp hc
    obtain rfl : fq = p := pjoin_inj hqe
    rw [(List.mem_filter.mp hfq).2] at hfa
    simp at hfa
  · intro hc
    rw [c2] at hc
    obtain ⟨fq, hfq, hqe⟩ := List.mem_map.mp hc
    obtain rfl : fq = p := pjoin_inj hqe
    rw [(List.mem_filter.mp hfq).2] at hfa
    simp at hfa
  · intro hc
    rw [c2] at hc
    obtain ⟨fq, hfq, hqe⟩ := List.mem_map.mp hc
    exact ⟨fq, (List.mem_filter.mp hfq).2, hqe.symm⟩
  · intro hc
    apply c3
    intro hq
    rw [c2] at hq
    obtain ⟨fq, hfq, hqe⟩ := List.mem_map.mp hq
    exact hc ⟨fq, (List.mem_filter.mp hfq).2, hqe.symm⟩

/-- C7: idempotence of the Mirror.  If a first run over the Processed set
succeeds and — as the spec's separate-tree premise guarantees — no library
source path coincides with a written destination, then a second run on the
resulting filesystem also succeeds (re-creating the already-existing
directories is not an error), reads and writes exactly the same paths,
changes no file (the destinations are overwritten with identical bytes),
and after either run every destination holds the bytes of its library
source, whose content the first run left unchanged. -/
theorem spec_c7 (apr src : Path) (processed : List Path) (fs fs1 : MFS)
    (r1 w1 : List Path) (hnd : processed.Nodup)
    (hsep : ∀ fp ∈ processed, ∀ fq ∈ processed, file_is_from_aprinter fp = true →
      file_is_from_aprinter fq = true → pjoin apr fp ≠ pjoin src fq)
    (hrun1 : copy_aprinter_files apr src processed fs = Except.ok (fs1, r1, w1)) :
    ∃ fs2 r2 w2, copy_aprinter_files apr src processed fs1 = Except.ok (fs2, r2, w2) ∧
      r2 = r1 ∧ w2 = w1 ∧
      (∀ q, lookupFM fs2.files q = lookupFM fs1.files q) ∧
      (∀ fp ∈ processed, file_is_from_aprinter fp = true →
        lookupFM fs1.files (pjoin src fp) = lookupFM fs.files (pjoin apr fp)) ∧
      (∀ fp ∈ processed, file_is_from_aprinter fp = true →
        lookupFM fs1.files (pjoin apr fp) = lookupFM fs.files (pjoin apr fp)) := by
  unfold copy_aprinter_files at hrun1 ⊢
  have hndL : (processed.filter (fun p => file_is_from_aprinter p)).Nodup :=
    hnd.filter _
  have hsepL : ∀ fp ∈ processed.filter (fun p => file_is_from_aprinter p),
      ∀ fq ∈ processed.filter (fun p => file_is_from_aprinter p),
      pjoin apr fp ≠ pjoin src fq := by
    intro fp hfp fq hfq
    exact hsep fp (List.mem_filter.mp hfp).1 fq (List.mem_filter.mp hfq).1
      (List.mem_filter.mp hfp).2 (List.mem_filter.mp hfq).2
  obtain ⟨c1, c2, c3, c4, c5, c6, c7, c8, c9, c10⟩ :=
    copyRunSpec apr src _ _ _ _ _ hrun1
  obtain ⟨cA, cB⟩ := c10 ⟨hndL, hsepL⟩
  have hsrc_nin : ∀ fp ∈ processed.filter (fun p => file_is_from_aprinter p),
      pjoin apr fp ∉ w1 := by
    intro fp hfp hc
    rw [c2] at hc
    obtain ⟨fq, hfq, hqe⟩ := List.mem_map.mp hc
    exact hsepL fp hfp fq hfq hqe.symm
  obtain ⟨gf1, gd1⟩ := fs1
  obtain ⟨fs2, r2, w2, hrun2⟩ := copyRunOk apr src
    (processed.filter (fun p => file_is_from_aprinter p)) gf1 gd1
    (by
      intro fp hfp
      have hnin : dirname (pjoin src fp) ∉ w1 := by
        intro hc
        rw [c2] at hc
        obtain ⟨fq, hfq, hqe⟩ := List.mem_map.mp hc
        exact c9 fp hfp fq hfq hqe
      rw [show lookupFM gf1 (dirname (pjoin src fp)) =
          lookupFM (⟨gf1, gd1⟩ : MFS).files (dirname (pjoin src fp)) from rfl,
        c3 _ hnin]
      exact c7 fp hfp)
    (by
      intro fp hfp
      rw [show lookupFM gf1 (pjoin apr fp) =
          lookupFM (⟨gf1, gd1⟩ : MFS).files (pjoin apr fp) from rfl,
        c3 _ (hsrc_nin fp hfp)]
      exact cB fp hfp)
    (by
      intro fp hfp hc
      rcases c6 (pjoin src fp) hc with hc2 | ⟨fq, hfq, hqe⟩
      · exact c8 fp hfp hc2
      · exact c9 fq hfq fp hfp hqe)
    c9 hsepL
  refine ⟨fs2, r2, w2, hrun2, ?_⟩
  obtain ⟨d1, d2, d3, d4, d5, d6, d7, d8, d9, d10⟩ :=
    copyRunSpec apr src _ _ _ _ _ hrun2
  obtain ⟨dA, dB⟩ := d10 ⟨hndL, hsepL⟩
  have hfs1_at_dst : ∀ fp ∈ processed.filter (fun p => file_is_from_aprinter p),
      lookupFM gf1 (pjoin src fp) = lookupFM fs.files (pjoin apr fp) := by
    intro fp hfp
    exact cA fp hfp
  have hfs1_at_src : ∀ fp ∈ processed.filter (fun p => file_is_from_aprinter p),
      lookupFM gf1 (pjoin apr fp) = lookupFM fs.files (pjoin apr fp) := by
    intro fp hfp
    rw [show lookupFM gf1 (pjoin apr fp) =
        lookupFM (⟨gf1, gd1⟩ : MFS).files (pjoin apr fp) from rfl,
      c3 _ (hsrc_nin fp hfp)]
  refine ⟨by rw [d1, c1], by rw [d2, c2], ?_, ?_, ?_⟩
  · intro q
    by_cases hq : q ∈ w1
    · rw [c2] at hq
      obtain ⟨fp, hfp, rfl⟩ := List.mem_map.mp hq
      rw [dA fp hfp, hfs1_at_src fp hfp, ← hfs1_at_dst fp hfp]
    · have hq2 : q ∉ w2 := by
        rw [d2, ← c2]
        exact hq
      exact d3 q hq2
  · intro fp hfp hfa
    exact hfs1_at_dst fp (List.mem_filter.mpr ⟨hfp, hfa⟩)
  · intro fp hfp hfa
    exact hfs1_at_src fp (List.mem_filter.mpr ⟨hfp, hfa⟩)

theorem resolveAll_ok_reads (c : Nat → Nat) (src apr : Path) (fs : FileMap)
    (seeds finalSet : List Path) (hnd : seeds.Nodup)
    (hrun : resolveAll c src apr fs seeds = some (Except.ok finalSet)) :
    ∀ x ∈ finalSet, (lookupFM fs (resolvedPath src apr x)).isSome = true := by
  have hadjU : ∀ p q : Path, q ∈ adjFM src apr fs p →
      q ∈ (universeFM fs seeds).toFinset := by
    intro p q hq
    rw [List.mem_toFinset]
    unfold universeFM
    exact List.mem_append.mpr (Or.inr (adjFM_subset_includesAll hq))
  have hfuel : ((universeFM fs seeds).toFinset \ ([] : List Path).toFinset).card <
      (universeFM fs seeds).length + 1 := by
    calc ((universeFM fs seeds).toFinset \ ([] : List Path).toFinset).card
        ≤ (universeFM fs seeds).toFinset.card :=
          Finset.card_le_card (Finset.sdiff_subset)
      _ ≤ (universeFM fs seeds).length := (universeFM fs seeds).toFinset_card_le
      _ < (universeFM fs seeds).length + 1 := Nat.lt_succ_self _
  obtain ⟨r, hrun2, hok, -⟩ := resolveMaster c src apr fs
    (universeFM fs seeds).toFinset hadjU ((universeFM fs seeds).length + 1)
    seeds [] hnd List.nodup_nil (by simp) (by
      intro x hx
      rw [List.mem_toFinset]
      unfold universeFM
      exact List.mem_append.mpr (Or.inl hx)) (by simp) hfuel
  obtain rfl : Except.ok finalSet = r := by
    have h2 : resolveAll c src apr fs seeds = some r := hrun2
    rw [hrun] at h2
    simpa using h2
  obtain ⟨-, -, -, -, -, h6⟩ := hok finalSet rfl
  intro x hx
  rcases h6 x hx with hx1 | hx1
  · simp at hx1
  · exact hx1

/-- C8: no error is locally recovered anywhere in the pipeline.  A seeding
(walk) error, a resolution read error, or a mirror error each becomes the
result of the whole run, unchanged; a resolution error names a resolved
path whose file does not exist; and an `ok` result is only possible when
every processed identifier's file was actually read — no failure is ever
swallowed. -/
theorem spec_c8 (c : Nat → Nat) (apr src : Path) (root : FsForest) (fs : MFS) :
    (∀ e, collect_files root = Except.error e →
      mainRun c apr src root fs = some (Except.error e)) ∧
    (∀ seeds e, collect_files root = Except.ok seeds →
      resolveAll c src apr fs.files seeds = some (Except.error e) →
      mainRun c apr src root fs = some (Except.error e) ∧
      lookupFM fs.files e = none ∧ ∃ x, e = resolvedPath src apr x) ∧
    (∀ seeds finalSet e, collect_files root = Except.ok seeds →
      resolveAll c src apr fs.files seeds = some (Except.ok finalSet) →
      copy_aprinter_files apr src finalSet fs = Except.error e →
      mainRun c apr src root fs = some (Except.error e)) ∧
    (∀ res, mainRun c apr src root fs = some (Except.ok res) →
      ∃ seeds finalSet, collect_files root = Except.ok seeds ∧
        resolveAll c src apr fs.files seeds = some (Except.ok finalSet) ∧
        copy_aprinter_files apr src finalSet fs = Except.ok res ∧
        (seeds.Nodup → ∀ x ∈ finalSet,
          (lookupFM fs.files (resolvedPath src apr x)).isSome = true)) := by
  refine ⟨?_, ?_, ?_, ?_⟩
  · intro e hcoll
    unfold mainRun
    rw [hcoll]
  · intro seeds e hcoll hres
    refine ⟨?_, ?_⟩
    · unfold mainRun
      rw [hcoll]
      dsimp only
      rw [hres]
    · obtain ⟨h1, h2⟩ := process_pending_files_error c src apr fs.files
        ((universeFM fs.files seeds).length + 1) seeds [] e hres
      exact ⟨h1, h2⟩
  · intro seeds finalSet e hcoll hres hcopy
    unfold mainRun
    rw [hcoll]
    dsimp only
    rw [hres]
    dsimp only
    rw [hcopy]
  · intro res h
    unfold mainRun at h
    cases hcoll : collect_files root with
    | error e =>
      rw [hcoll] at h
      simp at h
    | ok seeds =>
      rw [hcoll] at h
      dsimp only at h
      cases hres : resolveAll c src apr fs.files seeds with
      | none =>
        rw [hres] at h
        simp at h
      | some r =>
        cases r with
        | error e =>
          rw [hres] at h
          simp at h
        | ok finalSet =>
          rw [hres] at h
          dsimp only at h
          cases hcopy : copy_aprinter_files apr src finalSet fs with
          | error e =>
            rw [hcopy] at h
            simp at h
          | ok res2 =>
            rw [hcopy] at h
            obtain rfl : res2 = res := by simpa using h
            refine ⟨seeds, finalSet, rfl, hres, hcopy, ?_⟩
            intro hnd
            exact resolveAll_ok_reads c src apr fs.files seeds finalSet hnd hres

theorem spec_c1_witness :
    ∃ f1 f2, resolveAll (fun _ => 0) exSrc exApr exFiles exSeeds =
        some (Except.ok f1) ∧
      resolveAll (fun n => n) exSrc exApr exFiles exSeeds = some (Except.ok f2) ∧
      (strL "aprinter/baz.h" ∈ f1 ↔ strL "aprinter/baz.h" ∈ f2) ∧
      (strL "aprinter/baz.h" ∈ f1 ↔ (strL "aprinter/baz.h" ∈ exSeeds ∨
        ∃ p ∈ exSeeds,
          Reaches (adjFM exSrc exApr exFiles) p (strL "aprinter/baz.h"))) :=
  spec_c1 (fun _ => 0) (fun n => n) exSrc exApr exFiles exSeeds
    (strL "aprinter/baz.h") (by decide) (by decide) (by decide)

theorem spec_c2_witness :
    ∃ r, resolveAll (fun _ => 0) exSrc exApr exFiles exSeeds = some r :=
  spec_c2 (fun _ => 0) exSrc exApr exFiles exSeeds (by decide)

theorem spec_c3_witness :
    strL "foo.h" ∉ ([] : List Path) ∧
    [strL "foo.h"] = strL "foo.h" :: ([] : List Path) ∧
    (∀ x ∈ ([] : List Path), x ∈ [strL "foo.h"]) ∧
    ([strL "aprinter/bar.h"] : List Path).Nodup ∧
    ([strL "foo.h"] : List Path).Nodup ∧
    (∀ x ∈ [strL "aprinter/bar.h"], x ∉ [strL "foo.h"]) ∧
    strL "foo.h" ∉ [strL "aprinter/bar.h"] ∧
    (∀ x ∈ removeOne [strL "foo.h"] (strL "foo.h"), x ∉ [strL "foo.h"]) ∧
    (∀ L1 L2, adjFM exSrc exApr exFiles (strL "foo.h") = L1 ++ L2 →
      ∀ x ∈ L1.foldl (insNew [strL "foo.h"]) (removeOne [strL "foo.h"] (strL "foo.h")),
        x ∉ [strL "foo.h"]) :=
  spec_c3 exSrc exApr exFiles [strL "foo.h"] [] 0 (by decide)
    [strL "aprinter/bar.h"] [strL "foo.h"] (by decide) (by decide)
    (by decide) rfl

theorem spec_c6_witness :
    (pjoin exApr (strL "foo.h") ∉ [strL "apr/aprinter/baz.h"]) ∧
    (pjoin exSrc (strL "foo.h") ∉ [strL "src/aprinter/baz.h"]) ∧
    (strL "other.txt" ∈ [strL "src/aprinter/baz.h"] →
      ∃ fp, file_is_from_aprinter fp = true ∧ strL "other.txt" = pjoin exSrc fp) ∧
    ((¬ ∃ fp, file_is_from_aprinter fp = true ∧ strL "other.txt" = pjoin exSrc fp) →
      lookupFM ((⟨(strL "src/aprinter/baz.h", ([] : Content)) :: exFiles,
          [strL "src/aprinter"]⟩ : MFS)).files (strL "other.txt") =
        lookupFM exMFS.files (strL "other.txt")) :=
  spec_c6 exApr exSrc [strL "foo.h", strL "aprinter/baz.h"] exMFS
    ⟨(strL "src/aprinter/baz.h", ([] : Content)) :: exFiles, [strL "src/aprinter"]⟩
    [strL "apr/aprinter/baz.h"] [strL "src/aprinter/baz.h"]
    (strL "foo.h") (strL "other.txt") rfl (by decide) (by decide)

theorem spec_c7_witness :
    ∃ fs2 r2 w2, copy_aprinter_files exApr exSrc
        [strL "foo.h", strL "aprinter/baz.h"]
        (⟨(strL "src/aprinter/baz.h", ([] : Content)) :: exFiles,
          [strL "src/aprinter"]⟩ : MFS) = Except.ok (fs2, r2, w2) ∧
      r2 = [strL "apr/aprinter/baz.h"] ∧ w2 = [strL "src/aprinter/baz.h"] ∧
      (∀ q, lookupFM fs2.files q =
        lookupFM ((⟨(strL "src/aprinter/baz.h", ([] : Content)) :: exFiles,
          [strL "src/aprinter"]⟩ : MFS)).files q) ∧
      (∀ fp ∈ [strL "foo.h", strL "aprinter/baz.h"], file_is_from_aprinter fp = true →
        lookupFM ((⟨(strL "src/aprinter/baz.h", ([] : Content)) :: exFiles,
            [strL "src/aprinter"]⟩ : MFS)).files (pjoin exSrc fp) =
          lookupFM exMFS.files (pjoin exApr fp)) ∧
      (∀ fp ∈ [strL "foo.h", strL "aprinter/baz.h"], file_is_from_aprinter fp = true →
        lookupFM ((⟨(strL "src/aprinter/baz.h", ([] : Content)) :: exFiles,
            [strL "src/aprinter"]⟩ : MFS)).files (pjoin exApr fp) =
          lookupFM exMFS.files (pjoin exApr fp)) :=
  spec_c7 exApr exSrc [strL "foo.h", strL "aprinter/baz.h"] exMFS
    ⟨(strL "src/aprinter/baz.h", ([] : Content)) :: exFiles, [strL "src/aprinter"]⟩
    [strL "apr/aprinter/baz.h"] [strL "src/aprinter/baz.h"]
    (by decide) (by decide) rfl

theorem spec_c8_witness :
    ∃ seeds finalSet, collect_files exRoot = Except.ok seeds ∧
      resolveAll (fun _ => 0) exSrc exApr exMFS.files seeds =
        some (Except.ok finalSet) ∧
      copy_aprinter_files exApr exSrc finalSet exMFS = Except.ok
        (⟨(strL "src/aprinter/bar.h",
            [strL "#include <aprinter/baz.h>", strL "#include <vector>"]) ::
          (strL "src/aprinter/baz.h", ([] : Content)) :: exFiles,
          [strL "src/aprinter", strL "src/aprinter"]⟩,
          [strL "apr/aprinter/baz.h", strL "apr/aprinter/bar.h"],
          [strL "src/aprinter/baz.h", strL "src/aprinter/bar.h"]) ∧
      (seeds.Nodup → ∀ x ∈ finalSet,
        (lookupFM exMFS.files (resolvedPath exSrc exApr x)).isSome = true) :=
  (spec_c8 (fun _ => 0) exApr exSrc exRoot exMFS).2.2.2
    (⟨(strL "src/aprinter/bar.h",
        [strL "#include <aprinter/baz.h>", strL "#include <vector>"]) ::
      (strL "src/aprinter/baz.h", ([] : Content)) :: exFiles,
      [strL "src/aprinter", strL "src/aprinter"]⟩,
      [strL "apr/aprinter/baz.h", strL "apr/aprinter/bar.h"],
      [strL "src/aprinter/baz.h", strL "src/aprinter/bar.h"]) rfl

theorem spec_c9_witness :
    strL "sub/y.h" ∈ [strL "foo.h", strL "sub/y.h"] ↔
      (endsDotH (strL "sub/y.h") = true ∧
        ∃ segs, FindsReg exRoot9 segs ∧ strL "sub/y.h" = joinSegs segs ∧
          segs.head? ≠ some (strL "aprinter")) :=
  spec_c9 exRoot9 [strL "foo.h", strL "sub/y.h"] (strL "sub/y.h")
    (by decide) rfl

theorem spec_c10_witness :
    (∀ content inc, inc ∈ scanContent content →
      file_is_from_aprinter inc = true) ∧
    (∀ q ∈ [strL "aprinter/baz.h", strL "aprinter/bar.h", strL "foo.h"],
      file_is_from_aprinter q = false → q ∈ exSeeds) :=
  spec_c10 (fun _ => 0) exSrc exApr exFiles exSeeds
    [strL "aprinter/baz.h", strL "aprinter/bar.h", strL "foo.h"]
    (by decide) rfl

end CopySrcs
